import Mathlib

/-!
Verification of the database-cleaning engine of the Pokémon assessment
service (`candidate_solution.py`).

The engine's text handling is modelled over code points: a Python string
is a `List Nat` of code points, and the case/word/space tests used by the
source (`str.capitalize`, `str.lower`, the regex classes `\W` and `\s`,
SQLite `LOWER`) are modelled with their ASCII semantics, which is what
they compute on the data the engine handles.

The SQLite database is modelled as a record of row lists, one list per
table of the schema consumed by the engine (`pokemon`, `types`,
`abilities`, `trainers`, `trainer_pokemon_abilities`).  Network input
(the PokeAPI listings) enters `clean_database` as an explicit parameter
holding the fetched vocabulary of each category.
-/

namespace PokeClean

abbrev Str := List Nat

/-- Code points of a string literal; used to write concrete names. -/
def strOf (s : String) : Str := s.data.map Char.toNat

/-- ASCII uppercase letter. -/
def isUpperAlpha (c : Nat) : Bool := decide (65 ≤ c ∧ c ≤ 90)

/-- ASCII lowercase letter. -/
def isLowerAlpha (c : Nat) : Bool := decide (97 ≤ c ∧ c ≤ 122)

/-- ASCII digit. -/
def isDigitCp (c : Nat) : Bool := decide (48 ≤ c ∧ c ≤ 57)

/-- Alphanumeric code point, the class `[a-zA-Z0-9]` of `normalize_string`. -/
def isAlnumCp (c : Nat) : Bool := isUpperAlpha c || isLowerAlpha c || isDigitCp c

/-- Word code point, the regex class `\w` (alphanumeric or underscore). -/
def isWordCp (c : Nat) : Bool := isAlnumCp c || decide (c = 95)

/-- Whitespace code point, the regex class `\s` and `str.strip` default. -/
def isSpaceCp (c : Nat) : Bool := decide (c = 32 ∨ c = 9 ∨ c = 10 ∨ c = 11 ∨ c = 12 ∨ c = 13)

/-- Lowercasing of one code point (`str.lower`, SQLite `LOWER`). -/
def lowerCp (c : Nat) : Nat := if isUpperAlpha c then c + 32 else c

/-- Uppercasing of one code point (the head of `str.capitalize`). -/
def upperCp (c : Nat) : Nat := if isLowerAlpha c then c - 32 else c

/-- Lowercasing of a whole string. -/
def lowerStr (s : Str) : Str := s.map lowerCp

/-- Python `str.capitalize`: first code point uppercased, the rest lowercased. -/
def pyCapitalize : Str → Str
  | [] => []
  | c :: cs => upperCp c :: cs.map lowerCp

/-- The `text.replace(hyphen, space)` step of `to_title_case`. -/
def replaceHyphens (s : Str) : Str := s.map (fun c => if c = 45 then 32 else c)

/-- Python `s.split(sep)` with a single-space separator: splits at every
space and keeps empty tokens. -/
def pySplitSpace : Str → List Str
  | [] => [[]]
  | c :: cs =>
      let r := pySplitSpace cs
      if c = 32 then [] :: r
      else
        match r with
        | [] => [[c]]
        | w :: ws => (c :: w) :: ws

/-- Python `sep.join(ws)` with a single-space separator. -/
def joinSpace (ws : List Str) : Str := (ws.intersperse [32]).flatten

/-- Helper `to_title_case` of the source: empty input returned unchanged,
otherwise hyphens become spaces, the string is split on spaces, every
token is capitalized and the tokens are rejoined with single spaces. -/
def to_title_case (s : Str) : Str :=
  if s = [] then s
  else joinSpace ((pySplitSpace (replaceHyphens s)).map pyCapitalize)

/-- Helper `normalize_string` of the source: drop every non-alphanumeric
code point, then lowercase. -/
def normalize_string (s : Str) : Str := (s.filter isAlnumCp).map lowerCp

/-- Python `s.strip()`: drop whitespace from both ends. -/
def pyStrip (s : Str) : Str := ((s.dropWhile isSpaceCp).reverse.dropWhile isSpaceCp).reverse

/-- Match of `junk_pattern_global`, the anchored regex alternation of
all-non-word and all-whitespace strings. -/
def junk_pattern_match (s : Str) : Bool := s.all (fun c => ! isWordCp c) || s.all isSpaceCp

/-- The phase-1 junk test on one name value: falsy, whitespace-only after
stripping, or matching the junk pattern. -/
def isJunkStr (s : Str) : Bool := s.isEmpty || (pyStrip s).isEmpty || junk_pattern_match s

/-- The phase-1 junk test on a possibly-NULL name column value. -/
def isJunkName : Option Str → Bool
  | none => true
  | some s => isJunkStr s

/-- Rendering of the specification's `displayForm` description as one
boundary-tracking pass: after a space (or at the start) the next code
point is uppercased, every other code point of a token is lowercased,
with hyphens first replaced by spaces.  Used to check the source helper
against the specification's wording. -/
def displayFormGo : Bool → Str → Str
  | _, [] => []
  | atStart, c :: cs =>
      if c = 32 then 32 :: displayFormGo true cs
      else (if atStart then upperCp c else lowerCp c) :: displayFormGo false cs

/-- Specification-side display form; empty input returned unchanged. -/
def displayForm_spec (s : Str) : Str :=
  if s = [] then s else displayFormGo true (replaceHyphens s)

/-- Reference Levenshtein distance, defined by the classic structural
recursion with unit insertion, deletion and substitution costs. -/
def levRec : Str → Str → Nat
  | [], ys => ys.length
  | _ :: xs, [] => xs.length + 1
  | x :: xs, y :: ys =>
      min (levRec xs (y :: ys) + 1)
        (min (levRec (x :: xs) ys + 1) (levRec xs ys + (if x ≠ y then 1 else 0)))
termination_by xs ys => xs.length + ys.length
decreasing_by all_goals (simp only [List.length_cons]; omega)

/-- Levenshtein distance of the reversed strings; the dynamic program of
the source extends processed prefixes on the right, which matches this
orientation. -/
def levB (xs ys : Str) : Nat := levRec xs.reverse ys.reverse

/-- Inner loop of `levenshtein_distance`: one row update.  `c1` is the
current character of `s1`, the first list the remaining characters of
`s2`, the second the matching suffix of the previous row, and `last` the
last value appended to the current row. -/
def rowStep (c1 : Nat) : Str → List Nat → Nat → List Nat
  | [], _, _ => []
  | _ :: _, [], _ => []
  | _ :: _, [_], _ => []
  | c2 :: cs, p0 :: p1 :: ps, last =>
      let v := min (p1 + 1) (min (last + 1) (p0 + (if c1 ≠ c2 then 1 else 0)))
      v :: rowStep c1 cs (p1 :: ps) v

/-- Outer loop of `levenshtein_distance` over the characters of `s1`,
carrying the previous row and the row index. -/
def dpLoop (s2 : Str) : Str → List Nat → Nat → List Nat
  | [], prev, _ => prev
  | c1 :: rest, prev, i => dpLoop s2 rest ((i + 1) :: rowStep c1 s2 prev (i + 1)) (i + 1)

/-- Body of `levenshtein_distance` after the length swap: the `len(s2) == 0`
shortcut, then the row dynamic program seeded with `range(len(s2)+1)`,
answering with the last entry of the final row. -/
def levenshtein_core (s1 s2 : Str) : Nat :=
  if s2.length = 0 then s1.length
  else (dpLoop s2 s1 (List.range (s2.length + 1)) 0).getLastD 0

/-- Helper `levenshtein_distance` of the source: swap so that the first
string is the longer one, then run the single-row dynamic program. -/
def levenshtein_distance (s1 s2 : Str) : Nat :=
  if s1.length < s2.length then levenshtein_core s2 s1 else levenshtein_core s1 s2

/-- Row of prefix distances used to state the dynamic-program invariant:
entry `j` is the distance between `p` and `t` extended with the first
`j` remaining characters. -/
def prefRow (p : Str) : Str → Str → List Nat
  | _, [] => []
  | t, c :: cs => levB p (t ++ [c]) :: prefRow p (t ++ [c]) cs

/-- Lookup in a `valid_map`, modelled as an association list from
normalized keys to Title-Cased display forms (`key in valid_map` /
`valid_map[key]`). -/
def lookupKey (m : List (Str × Str)) (k : Str) : Option Str :=
  (m.find? (fun e => decide (e.1 = k))).map Prod.snd

/-- One iteration of the fuzzy-search loop of phase 1: accumulator is the
pair of the minimum distance found so far (`none` is `float(inf)`) and
the proposed name; an entry replaces the proposal when strictly closer,
or at equal distance when its key is shorter than the normalized current
proposal. -/
def fuzzyStep (key : Str) (acc : Option Nat × Str) (e : Str × Str) : Option Nat × Str :=
  let dist := levenshtein_distance key e.1
  match acc.1 with
  | none => (some dist, e.2)
  | some m =>
      if dist < m then (some dist, e.2)
      else if dist = m ∧ e.1.length < (normalize_string acc.2).length then (some dist, e.2)
      else (some m, acc.2)

/-- Name proposed by phase 1 for one non-junk row name: exact map hit,
else fuzzy search accepted when the minimum distance is within the
threshold, else the Title-Cased current name. -/
def proposeName (vmap : List (Str × Str)) (threshold : Nat) (current : Str) : Str :=
  let key := normalize_string current
  match lookupKey vmap key with
  | some disp => disp
  | none =>
      let res := vmap.foldl (fuzzyStep key) (none, to_title_case current)
      match res.1 with
      | none => to_title_case current
      | some m => if threshold < m then to_title_case current else res.2

/-- Minimum Levenshtein distance from `key` to the keys of a map
(`none` when the map is empty); used to state the matcher's contract. -/
def minDistOf (key : Str) (vmap : List (Str × Str)) : Option Nat :=
  vmap.foldl (fun a e =>
    match a with
    | none => some (levenshtein_distance key e.1)
    | some m => some (min m (levenshtein_distance key e.1))) none

/-- Python-dict insertion on an association list: overwrite the value in
place when the key is present, else append the new binding. -/
def dictInsert (m : List (Str × Str)) (k v : Str) : List (Str × Str) :=
  if m.any (fun e => decide (e.1 = k)) then
    m.map (fun e => if e.1 = k then (e.1, v) else e)
  else m ++ [(k, v)]

/-- The `valid_map` comprehension: normalized key to Title-Cased display
form, over the raw vocabulary in order. -/
def buildValidMap (raws : List Str) : List (Str × Str) :=
  raws.foldl (fun m n => dictInsert m (normalize_string n) (to_title_case n)) []

/-- Tables of the schema the cleaning engine touches. -/
inductive TblName
  | pokemon
  | types
  | abilities
  | trainers
  | trainer_pokemon_abilities
deriving DecidableEq

/-- Foreign-key columns appearing in the static edge list. -/
inductive ColName
  | type1_id
  | type2_id
  | pokemon_id
  | trainer_id
  | ability_id
deriving DecidableEq

/-- Row of the `pokemon` table. -/
structure PRow where
  id : Nat
  name : Option Str
  type1_id : Option Nat
  type2_id : Option Nat
deriving DecidableEq

/-- Row of the `types`, `abilities` and `trainers` tables. -/
structure ERow where
  id : Nat
  name : Option Str
deriving DecidableEq

/-- Row of the `trainer_pokemon_abilities` association table. -/
structure TpaRow where
  id : Nat
  trainer_id : Option Nat
  pokemon_id : Option Nat
  ability_id : Option Nat
deriving DecidableEq

/-- State of the SQLite database visible to the cleaning engine. -/
structure DB where
  pokemon : List PRow
  types : List ERow
  abilities : List ERow
  trainers : List ERow
  tpa : List TpaRow
deriving DecidableEq

/-- The static foreign-key edge list of the source:
(table with FK, FK column, referenced table). -/
def fk_relationships : List (TblName × ColName × TblName) :=
  [(.pokemon, .type1_id, .types),
   (.pokemon, .type2_id, .types),
   (.trainer_pokemon_abilities, .pokemon_id, .pokemon),
   (.trainer_pokemon_abilities, .trainer_id, .trainers),
   (.trainer_pokemon_abilities, .ability_id, .abilities)]

/-- The SQL `UPDATE tbl SET col = f(col)` statement of the cascade
helpers, restricted to the rows the `WHERE` clause selects through `f`.
A (table, column) pair outside the schema is the tolerated
`no such column` case and leaves the database unchanged. -/
def updateFkCol (db : DB) (t : TblName) (c : ColName) (f : Option Nat → Option Nat) : DB :=
  match t, c with
  | .pokemon, .type1_id =>
      { db with pokemon := db.pokemon.map (fun r => { r with type1_id := f r.type1_id }) }
  | .pokemon, .type2_id =>
      { db with pokemon := db.pokemon.map (fun r => { r with type2_id := f r.type2_id }) }
  | .trainer_pokemon_abilities, .pokemon_id =>
      { db with tpa := db.tpa.map (fun r => { r with pokemon_id := f r.pokemon_id }) }
  | .trainer_pokemon_abilities, .trainer_id =>
      { db with tpa := db.tpa.map (fun r => { r with trainer_id := f r.trainer_id }) }
  | .trainer_pokemon_abilities, .ability_id =>
      { db with tpa := db.tpa.map (fun r => { r with ability_id := f r.ability_id }) }
  | _, _ => db

/-- Shared shape of the two cascade helpers: walk the static edge list
and update every column whose referenced table matches. -/
def fkFold (db : DB) (t0 : TblName) (f : Option Nat → Option Nat) : DB :=
  fk_relationships.foldl
    (fun d e => if e.2.2 = t0 then updateFkCol d e.1 e.2.1 f else d) db

/-- Pointwise effect of `SET col = NULL WHERE col = deletedId`. -/
def nullifyOne (deletedId : Nat) (v : Option Nat) : Option Nat :=
  if v = some deletedId then none else v

/-- Helper `nullify_fks_referencing_id` of the source. -/
def nullify_fks_referencing_id (db : DB) (deletedId : Nat) (t0 : TblName) : DB :=
  fkFold db t0 (nullifyOne deletedId)

/-- Pointwise effect of `SET col = canonical WHERE col IN dups`
(`NULL IN (...)` selects nothing). -/
def remapOne (canonical : Nat) (dups : List Nat) (v : Option Nat) : Option Nat :=
  match v with
  | none => none
  | some x => if x ∈ dups then some canonical else some x

/-- The FK remapping loop of phase 3 (dedup) for one group. -/
def remap_fks_referencing (db : DB) (canonical : Nat) (dups : List Nat) (t0 : TblName) : DB :=
  fkFold db t0 (remapOne canonical dups)

/-- Result of `SELECT id, name FROM t` (empty for the association table,
which the per-table passes never select). -/
def tableRows (db : DB) : TblName → List (Nat × Option Str)
  | .pokemon => db.pokemon.map (fun r => (r.id, r.name))
  | .types => db.types.map (fun r => (r.id, r.name))
  | .abilities => db.abilities.map (fun r => (r.id, r.name))
  | .trainers => db.trainers.map (fun r => (r.id, r.name))
  | .trainer_pokemon_abilities => []

/-- Surviving row ids of a table. -/
def idsOf (db : DB) (t : TblName) : List Nat := (tableRows db t).map Prod.fst

/-- `DELETE FROM t WHERE id = i`. -/
def deleteById (db : DB) (t : TblName) (i : Nat) : DB :=
  match t with
  | .pokemon => { db with pokemon := db.pokemon.filter (fun r => decide (r.id ≠ i)) }
  | .types => { db with types := db.types.filter (fun r => decide (r.id ≠ i)) }
  | .abilities => { db with abilities := db.abilities.filter (fun r => decide (r.id ≠ i)) }
  | .trainers => { db with trainers := db.trainers.filter (fun r => decide (r.id ≠ i)) }
  | .trainer_pokemon_abilities => db

/-- `DELETE FROM t WHERE id IN dups`. -/
def removeIds (db : DB) (t : TblName) (dups : List Nat) : DB :=
  match t with
  | .pokemon => { db with pokemon := db.pokemon.filter (fun r => decide (r.id ∉ dups)) }
  | .types => { db with types := db.types.filter (fun r => decide (r.id ∉ dups)) }
  | .abilities => { db with abilities := db.abilities.filter (fun r => decide (r.id ∉ dups)) }
  | .trainers => { db with trainers := db.trainers.filter (fun r => decide (r.id ∉ dups)) }
  | .trainer_pokemon_abilities => db

/-- `UPDATE t SET name = nm WHERE id = i`. -/
def setName (db : DB) (t : TblName) (i : Nat) (nm : Option Str) : DB :=
  match t with
  | .pokemon =>
      { db with pokemon := db.pokemon.map (fun r => if r.id = i then { r with name := nm } else r) }
  | .types =>
      { db with types := db.types.map (fun r => if r.id = i then { r with name := nm } else r) }
  | .abilities =>
      { db with abilities := db.abilities.map (fun r => if r.id = i then { r with name := nm } else r) }
  | .trainers =>
      { db with trainers := db.trainers.map (fun r => if r.id = i then { r with name := nm } else r) }
  | .trainer_pokemon_abilities => db

/-- Application of one queued phase-1 update: re-read the current name of
the row and update only when the row still exists and its name differs. -/
def condUpdateName (db : DB) (t : TblName) (i : Nat) (newName : Str) : DB :=
  match (tableRows db t).find? (fun r => decide (r.1 = i)) with
  | none => db
  | some r0 => if r0.2 ≠ some newName then setName db t i (some newName) else db

/-- Vocabularies fetched from the PokeAPI listing endpoints, passed to
the engine as explicit input. -/
structure Vocab where
  pokemonNames : List Str
  typeNames : List Str
  abilityNames : List Str
deriving DecidableEq

/-- The static trainer vocabulary of the source. -/
def raw_valid_trainer_names_list : List Str :=
  [strOf ("Ash Ketchum"), strOf ("Brock"), strOf ("Gary Oak"),
   strOf ("Professor Oak"), strOf ("Misty")]

/-- Raw vocabulary of one category. -/
def rawNamesFor (v : Vocab) : TblName → List Str
  | .pokemon => v.pokemonNames
  | .types => v.typeNames
  | .abilities => v.abilityNames
  | .trainers => raw_valid_trainer_names_list
  | .trainer_pokemon_abilities => []

/-- The `valid_map` of one entry of `tables_meta`. -/
def validMapFor (v : Vocab) (t : TblName) : List (Str × Str) :=
  buildValidMap (rawNamesFor v t)

/-- The `original_valid_set` of one entry of `tables_meta` (a list with
set membership semantics). -/
def validSetFor (v : Vocab) (t : TblName) : List Str :=
  (rawNamesFor v t).map to_title_case

/-- The per-category Levenshtein threshold of `tables_meta`. -/
def thresholdFor (_ : TblName) : Nat := 2

/-- Iteration order of `tables_meta`. -/
def entity_tables : List TblName := [.pokemon, .types, .abilities, .trainers]

/-- Phase 1 (source step 2) for one table: snapshot the rows, collect
junk deletions and fuzzy/casing updates, apply the deletions first (each
preceded by FK nullification), then apply the updates with a re-read. -/
def step2_table (v : Vocab) (db : DB) (t : TblName) : DB :=
  let vmap := validMapFor v t
  let thr := thresholdFor t
  let rows := tableRows db t
  let dels := rows.filter (fun r => isJunkName r.2)
  let upds := rows.filterMap (fun r =>
    match r.2 with
    | none => none
    | some nm =>
        if isJunkStr nm then none
        else
          let p := proposeName vmap thr nm
          if p ≠ nm then some (r.1, p) else none)
  let db1 := dels.foldl (fun d r => deleteById (nullify_fks_referencing_id d r.1 t) t r.1) db
  upds.foldl (fun d u => condUpdateName d t u.1 u.2) db1

/-- Phase 2 (source step 3) for one table: delete every row whose name is
not in the category's `original_valid_set`, nullifying FKs first. -/
def step3_table (v : Vocab) (db : DB) (t : TblName) : DB :=
  let vset := validSetFor v t
  let rows := tableRows db t
  let dels := rows.filter (fun r =>
    match r.2 with
    | none => true
    | some nm => decide (nm ∉ vset))
  dels.foldl (fun d r => deleteById (nullify_fks_referencing_id d r.1 t) t r.1) db

/-- Grouping key of the dedup query: `LOWER(name)`, with NULL preserved. -/
def keyOfRow (r : Nat × Option Str) : Option Str := r.2.map lowerStr

/-- First-occurrence deduplication, used to enumerate the `GROUP BY` keys. -/
def uniqFirst (l : List (Option Str)) : List (Option Str) :=
  l.foldl (fun acc k => if k ∈ acc then acc else acc ++ [k]) []

/-- `MIN(id)` of a group. -/
def minIdOf : List Nat → Nat
  | [] => 0
  | x :: xs => xs.foldl Nat.min x

/-- The dedup query of phase 3 (source step 4): for every `LOWER(name)`
group with more than one row, the canonical (minimum) id together with
the group's ids. -/
def dupGroups (db : DB) (t : TblName) : List (Nat × List Nat) :=
  let rows := tableRows db t
  (uniqFirst (rows.map keyOfRow)).filterMap (fun k =>
    let ids := (rows.filter (fun r => decide (keyOfRow r = k))).map Prod.fst
    if 2 ≤ ids.length then some (minIdOf ids, ids) else none)

/-- Processing of one duplicate group: skip when nothing is to be
removed, else remap every FK pointing at a duplicate to the canonical id
and then delete the duplicate rows. -/
def step4_group (db : DB) (t : TblName) (canonical : Nat) (ids : List Nat) : DB :=
  let dups := ids.filter (fun x => decide (x ≠ canonical))
  if dups = [] then db
  else removeIds (remap_fks_referencing db canonical dups t) t dups

/-- Phase 3 (source step 4) for one table. -/
def step4_table (db : DB) (t : TblName) : DB :=
  (dupGroups db t).foldl (fun d g => step4_group d t g.1 g.2) db

/-- The cleaning pipeline of `clean_database` on the success path:
phase 1 over all entity tables, then phase 2, then phase 3. -/
def clean_database (v : Vocab) (db : DB) : DB :=
  let db2 := entity_tables.foldl (fun d t => step2_table v d t) db
  let db3 := entity_tables.foldl (fun d t => step3_table v d t) db2
  entity_tables.foldl (fun d t => step4_table d t) db3

/-- Lexicographic comparison of code-point strings (Python `sorted`). -/
def lexLtCp : Str → Str → Bool
  | [], [] => false
  | [], _ :: _ => true
  | _ :: _, [] => false
  | a :: as, b :: bs => if a < b then true else if b < a then false else lexLtCp as bs

/-- Insertion into a sorted duplicate-free list. -/
def insSorted (x : Str) : List Str → List Str
  | [] => [x]
  | y :: ys => if x = y then y :: ys else if lexLtCp x y then x :: y :: ys else y :: insSorted x ys

/-- `sorted(list(set(...)))` of the fetch helper. -/
def sortDedup (l : List Str) : List Str := l.foldr insSorted []

/-- Pagination loop of `_fetch_all_pokeapi_resources` over the observed
page responses: `none` is a transport error or non-success status and
aborts the whole fetch with an empty result; otherwise names accumulate
until the terminal page. -/
def fetch_pages : List (Option (List Str)) → List Str → List Str
  | [], acc => sortDedup acc
  | none :: _, _ => []
  | some ns :: rest, acc => fetch_pages rest (acc ++ ns)

/-- Helper `_fetch_all_pokeapi_resources` of the source, over the page
responses returned by the network. -/
def fetch_all_pokeapi_resources (pages : List (Option (List Str))) : List Str :=
  fetch_pages pages []

/-- The vocabularies built by step 1 of `clean_database` from the three
listing endpoints' responses. -/
def vocabOfPages (pp pt pa : List (Option (List Str))) : Vocab :=
  { pokemonNames := fetch_all_pokeapi_resources pp,
    typeNames := fetch_all_pokeapi_resources pt,
    abilityNames := fetch_all_pokeapi_resources pa }

/-- Outcome of one call of `clean_database` as seen by its caller. -/
structure CleanRunResult where
  db : DB
  committed : Bool
  raised : Bool
deriving DecidableEq

/-- The `try`/`commit`/`except sqlite3.Error`/`rollback` wrapper of
`clean_database`: when a storage error strikes at any phase the open
transaction is rolled back (the database keeps its entry state and
nothing is committed) and the exception is caught — the function returns
normally, so `raised` is false on both paths. -/
def clean_database_guarded (v : Vocab) (db : DB) (storage_error_at : Option Nat) : CleanRunResult :=
  match storage_error_at with
  | some _ => { db := db, committed := false, raised := false }
  | none => { db := clean_database v db, committed := true, raised := false }

/-- Validity of one foreign-key value against the referenced table. -/
def refOk (ids : List Nat) : Option Nat → Prop
  | none => True
  | some x => x ∈ ids

instance (ids : List Nat) (v : Option Nat) : Decidable (refOk ids v) :=
  match v with
  | none => .isTrue trivial
  | some x => inferInstanceAs (Decidable (x ∈ ids))

/-- Referential integrity: every non-null FK value of a dependent column
references an existing row id of its referenced table. -/
def RefIntegrity (db : DB) : Prop :=
  (∀ r ∈ db.pokemon,
    refOk (db.types.map ERow.id) r.type1_id ∧ refOk (db.types.map ERow.id) r.type2_id) ∧
  (∀ r ∈ db.tpa,
    refOk (db.pokemon.map PRow.id) r.pokemon_id ∧
    refOk (db.trainers.map ERow.id) r.trainer_id ∧
    refOk (db.abilities.map ERow.id) r.ability_id)

/-- Primary-key uniqueness of the four entity tables. -/
def UniqueIds (db : DB) : Prop :=
  (db.pokemon.map PRow.id).Nodup ∧ (db.types.map ERow.id).Nodup ∧
  (db.abilities.map ERow.id).Nodup ∧ (db.trainers.map ERow.id).Nodup

instance (db : DB) : Decidable (RefIntegrity db) := by
  unfold RefIntegrity
  infer_instance

instance (db : DB) : Decidable (UniqueIds db) := by
  unfold UniqueIds
  infer_instance

/-- Projection of one dependent FK column, used to state the remap
contract of dedup. -/
def colVals (db : DB) (t : TblName) (c : ColName) : List (Option Nat) :=
  match t, c with
  | .pokemon, .type1_id => db.pokemon.map PRow.type1_id
  | .pokemon, .type2_id => db.pokemon.map PRow.type2_id
  | .trainer_pokemon_abilities, .pokemon_id => db.tpa.map TpaRow.pokemon_id
  | .trainer_pokemon_abilities, .trainer_id => db.tpa.map TpaRow.trainer_id
  | .trainer_pokemon_abilities, .ability_id => db.tpa.map TpaRow.ability_id
  | _, _ => []

/-- Concrete vocabulary used by the witnesses. -/
def V0 : Vocab :=
  { pokemonNames := [strOf ("bulbasaur"), strOf ("pikachu")],
    typeNames := [strOf ("electric"), strOf ("fire")],
    abilityNames := [strOf ("static")] }

/-- Concrete database used by the witnesses: a duplicate Pikachu pair
with a dependent association row. -/
def DB0 : DB :=
  { pokemon := [{ id := 1, name := some (strOf ("Pikachu")), type1_id := some 2, type2_id := none },
                { id := 2, name := some (strOf ("pikachu")), type1_id := some 2, type2_id := none }],
    types := [{ id := 1, name := some (strOf ("Fire")) }, { id := 2, name := some (strOf ("Electric")) }],
    abilities := [{ id := 1, name := some (strOf ("Static")) }],
    trainers := [{ id := 1, name := some (strOf ("Brock")) }],
    tpa := [{ id := 1, trainer_id := some 1, pokemon_id := some 2, ability_id := some 1 }] }

/-- Concrete reference map used by the C5 witness. -/
def M0 : List (Str × Str) := [(strOf ("pikachu"), strOf ("Pikachu"))]

/-- Concrete database holding an underscore-only name, for C10. -/
def DBu : DB :=
  { pokemon := [],
    types := [{ id := 1, name := some (strOf ("___")) }],
    abilities := [],
    trainers := [],
    tpa := [] }

end PokeClean

namespace PokeClean

theorem pySplitSpace_ne_nil (s : Str) : pySplitSpace s ≠ [] := by
  cases s with
  | nil => simp [pySplitSpace]
  | cons c cs =>
      simp only [pySplitSpace]
      split
      · simp
      · split <;> simp

theorem joinSpace_cons_cons (w w' : Str) (ws : List Str) :
    joinSpace (w :: w' :: ws) = w ++ 32 :: joinSpace (w' :: ws) := by
  simp [joinSpace, List.intersperse]

theorem pyCapitalize_cons (c : Nat) (cs : Str) :
    pyCapitalize (c :: cs) = upperCp c :: cs.map lowerCp := rfl

theorem displayFormGo_spec (cs : Str) :
    displayFormGo true cs = joinSpace ((pySplitSpace cs).map pyCapitalize)
    ∧ ∀ w ws, pySplitSpace cs = w :: ws →
        displayFormGo false cs = w.map lowerCp ++
          (match ws with
           | [] => ([] : Str)
           | _ :: _ => 32 :: joinSpace (ws.map pyCapitalize)) := by
  induction cs with
  | nil =>
      constructor
      · simp [displayFormGo, pySplitSpace, joinSpace, pyCapitalize]
      · intro w ws h
        simp [pySplitSpace] at h
        obtain ⟨hw, hws⟩ := h
        subst hw; subst hws
        simp [displayFormGo]
  | cons c cs ih =>
      obtain ⟨ih1, ih2⟩ := ih
      by_cases hc : c = 32
      · subst hc
        have hsplit : pySplitSpace (32 :: cs) = [] :: pySplitSpace cs := by
          simp [pySplitSpace]
        have hgo : displayFormGo true (32 :: cs) = 32 :: displayFormGo true cs := by
          simp [displayFormGo]
        have hgo' : displayFormGo false (32 :: cs) = 32 :: displayFormGo true cs := by
          simp [displayFormGo]
        obtain ⟨w, ws, hw⟩ := List.exists_cons_of_ne_nil (pySplitSpace_ne_nil cs)
        constructor
        · rw [hsplit, hw, hgo]
          simp only [List.map_cons]
          rw [joinSpace_cons_cons]
          rw [hw] at ih1
          simp only [List.map_cons] at ih1
          simp [pyCapitalize, ih1]
        · intro w0 ws0 h0
          rw [hsplit] at h0
          cases h0
          rw [hgo']
          rw [hw] at ih1 ⊢
          simp [ih1]
      · have hsp : pySplitSpace (c :: cs) =
            (c :: (pySplitSpace cs).headI) :: (pySplitSpace cs).tail := by
          obtain ⟨w, ws, hw⟩ := List.exists_cons_of_ne_nil (pySplitSpace_ne_nil cs)
          simp only [pySplitSpace]
          rw [if_neg hc, hw]
          simp
        obtain ⟨w, ws, hw⟩ := List.exists_cons_of_ne_nil (pySplitSpace_ne_nil cs)
        rw [hw] at hsp
        simp only [List.headI, List.tail_cons] at hsp
        have h2 := ih2 w ws hw
        have hgo : displayFormGo true (c :: cs) = upperCp c :: displayFormGo false cs := by
          simp [displayFormGo, hc]
        have hgo' : displayFormGo false (c :: cs) = lowerCp c :: displayFormGo false cs := by
          simp [displayFormGo, hc]
        constructor
        · rw [hsp, hgo]
          simp only [List.map_cons]
          cases ws with
          | nil =>
              simp only [List.map_nil] at h2 ⊢
              simp [joinSpace, pyCapitalize, h2]
          | cons w' ws' =>
              simp only [List.map_cons]
              rw [joinSpace_cons_cons, h2, pyCapitalize_cons]
              simp
        · intro w0 ws0 h0
          rw [hsp] at h0
          cases h0
          rw [hgo']
          cases ws with
          | nil => simp [h2]
          | cons w' ws' => simp [h2]

/-- C9: the source helper `to_title_case` implements the specification's
`displayForm`: hyphens become spaces, tokens are split on spaces, each
token is title-capitalized, tokens are rejoined with single spaces, and
empty (falsy) input is returned unchanged. -/
theorem C9_display_form :
    (∀ s : Str, to_title_case s = displayForm_spec s) ∧
    to_title_case [] = [] ∧
    to_title_case (strOf ("rock-slide")) = strOf ("Rock Slide") := by
  refine ⟨?_, by simp [to_title_case], by decide⟩
  intro s
  by_cases h : s = []
  · subst h; rfl
  · rw [to_title_case, displayForm_spec, if_neg h, if_neg h]
    exact (displayFormGo_spec (replaceHyphens s)).1.symm

theorem levRec_nil_left (ys : Str) : levRec [] ys = ys.length := by
  rw [levRec]

theorem levRec_nil_right (xs : Str) : levRec xs [] = xs.length := by
  cases xs <;> simp [levRec]

theorem levRec_cons_cons (x y : Nat) (xs ys : Str) :
    levRec (x :: xs) (y :: ys) =
      min (levRec xs (y :: ys) + 1)
        (min (levRec (x :: xs) ys + 1) (levRec xs ys + (if x ≠ y then 1 else 0))) := by
  rw [levRec]

theorem levRec_symm (xs : Str) : ∀ ys : Str, levRec xs ys = levRec ys xs := by
  induction xs with
  | nil => intro ys; rw [levRec_nil_left, levRec_nil_right]
  | cons x xs ih =>
      intro ys
      induction ys with
      | nil => rw [levRec_nil_left, levRec_nil_right]
      | cons y ys ih2 =>
          rw [levRec_cons_cons, levRec_cons_cons y x]
          rw [ih (y :: ys), ih2, ih ys]
          have hc : (if x ≠ y then 1 else 0) = (if y ≠ x then 1 else 0) := by
            by_cases h : x = y
            · subst h; rfl
            · rw [if_pos h, if_pos (Ne.symm h)]
          rw [hc, min_left_comm]

theorem levRec_self (xs : Str) : levRec xs xs = 0 := by
  induction xs with
  | nil => rw [levRec_nil_left]; rfl
  | cons x xs ih =>
      rw [levRec_cons_cons]
      have hc : (if x ≠ x then 1 else 0) = 0 := by simp
      rw [hc, ih]
      omega

theorem levB_nil_right (p : Str) : levB p [] = p.length := by
  simp [levB, levRec_nil_right]

theorem levB_nil_left (t : Str) : levB [] t = t.length := by
  simp [levB, levRec_nil_left]

theorem levB_symm (p t : Str) : levB p t = levB t p := by
  simp [levB, levRec_symm]

theorem levB_self (p : Str) : levB p p = 0 := by
  simp [levB, levRec_self]

theorem levB_snoc_snoc (p t : Str) (a b : Nat) :
    levB (p ++ [a]) (t ++ [b]) =
      min (levB p (t ++ [b]) + 1)
        (min (levB (p ++ [a]) t + 1) (levB p t + (if a ≠ b then 1 else 0))) := by
  simp only [levB, List.reverse_append, List.reverse_cons, List.reverse_nil,
    List.nil_append, List.singleton_append]
  rw [levRec_cons_cons]

theorem rowStep_prefRow (a : Nat) (p : Str) :
    ∀ cs t : Str,
      rowStep a cs (levB p t :: prefRow p t cs) (levB (p ++ [a]) t) =
        prefRow (p ++ [a]) t cs := by
  intro cs
  induction cs with
  | nil => intro t; rfl
  | cons c cs ih =>
      intro t
      show rowStep a (c :: cs)
          (levB p t :: levB p (t ++ [c]) :: prefRow p (t ++ [c]) cs)
          (levB (p ++ [a]) t) = _
      simp only [rowStep]
      rw [← levB_snoc_snoc]
      rw [ih (t ++ [c])]
      rfl

theorem dpLoop_spec (ys : Str) :
    ∀ rest p : Str,
      dpLoop ys rest (levB p [] :: prefRow p [] ys) (levB p []) =
        levB (p ++ rest) [] :: prefRow (p ++ rest) [] ys := by
  intro rest
  induction rest with
  | nil => intro p; simp [dpLoop]
  | cons a rest ih =>
      intro p
      show dpLoop ys rest
          ((levB p [] + 1) :: rowStep a ys (levB p [] :: prefRow p [] ys) (levB p [] + 1))
          (levB p [] + 1) = _
      have hlen : levB p [] + 1 = levB (p ++ [a]) [] := by
        rw [levB_nil_right, levB_nil_right]; simp
      rw [hlen, rowStep_prefRow a p ys []]
      have := ih (p ++ [a])
      rw [List.append_assoc] at this
      simpa using this

theorem prefRow_nil_left : ∀ ys t : Str, prefRow [] t ys = List.range' (t.length + 1) ys.length := by
  intro ys
  induction ys with
  | nil => intro t; rfl
  | cons c cs ih =>
      intro t
      show levB [] (t ++ [c]) :: prefRow [] (t ++ [c]) cs = _
      rw [levB_nil_left, ih (t ++ [c])]
      simp [List.range'_succ, Nat.add_assoc]

theorem range_eq_initRow (ys : Str) :
    List.range (ys.length + 1) = levB [] [] :: prefRow [] [] ys := by
  rw [prefRow_nil_left ys [], List.range_eq_range', List.range'_succ, levB_nil_right]
  rfl

theorem prefRow_getLastD (p : Str) :
    ∀ ys t : Str, (prefRow p t ys).getLastD (levB p t) = levB p (t ++ ys) := by
  intro ys
  induction ys with
  | nil => intro t; simp [prefRow]
  | cons c cs ih =>
      intro t
      show (levB p (t ++ [c]) :: prefRow p (t ++ [c]) cs).getLastD (levB p t) = _
      rw [List.getLastD_cons, ih (t ++ [c])]
      simp

theorem levenshtein_core_eq_levB (s1 s2 : Str) : levenshtein_core s1 s2 = levB s1 s2 := by
  rw [levenshtein_core]
  by_cases h : s2.length = 0
  · rw [if_pos h]
    rw [List.length_eq_zero] at h
    subst h
    rw [levB_nil_right]
  · rw [if_neg h]
    rw [range_eq_initRow s2]
    have h0 : (0 : Nat) = levB [] [] := by simp [levB_nil_right]
    rw [h0, dpLoop_spec s2 s1 []]
    simp only [List.nil_append]
    rw [List.getLastD_cons, prefRow_getLastD s1 s2 []]
    rfl

theorem levenshtein_distance_eq_levB (s1 s2 : Str) :
    levenshtein_distance s1 s2 = levB s1 s2 := by
  rw [levenshtein_distance]
  by_cases h : s1.length < s2.length
  · rw [if_pos h, levenshtein_core_eq_levB, levB_symm]
  · rw [if_neg h, levenshtein_core_eq_levB]

/-- C8: the edit-distance helper computes classic Levenshtein distance
with unit costs — the three concrete values of the specification hold,
and the function is symmetric, zero on equal strings, and equal to the
length on an empty first argument. -/
theorem C8_levenshtein_distance :
    levenshtein_distance (strOf ("kitten")) (strOf ("sitting")) = 3 ∧
    levenshtein_distance (strOf ("")) (strOf ("abc")) = 3 ∧
    levenshtein_distance (strOf ("same")) (strOf ("same")) = 0 ∧
    (∀ a b : Str, levenshtein_distance a b = levenshtein_distance b a) ∧
    (∀ a : Str, levenshtein_distance a a = 0) ∧
    (∀ s : Str, levenshtein_distance [] s = s.length) := by
  refine ⟨by decide, by decide, by decide, ?_, ?_, ?_⟩
  · intro a b
    rw [levenshtein_distance_eq_levB, levenshtein_distance_eq_levB, levB_symm]
  · intro a
    rw [levenshtein_distance_eq_levB, levB_self]
  · intro s
    rw [levenshtein_distance_eq_levB, levB_nil_left]

theorem fuzzyStep_fst (key : Str) (acc : Option Nat × Str) (e : Str × Str) :
    (fuzzyStep key acc e).1 =
      match acc.1 with
      | none => some (levenshtein_distance key e.1)
      | some m => some (min m (levenshtein_distance key e.1)) := by
  rcases acc with ⟨a, prop⟩
  cases a with
  | none => rfl
  | some m =>
      simp only [fuzzyStep]
      by_cases h1 : levenshtein_distance key e.1 < m
      · rw [if_pos h1]
        simp only [Option.some.injEq]
        omega
      · rw [if_neg h1]
        by_cases h2 : levenshtein_distance key e.1 = m ∧
            e.1.length < (normalize_string prop).length
        · rw [if_pos h2]
          obtain ⟨h2a, _⟩ := h2
          simp only [Option.some.injEq]
          omega
        · rw [if_neg h2]
          simp only [Option.some.injEq]
          omega

theorem fuzzyFold_fst (key : Str) :
    ∀ (L : List (Str × Str)) (acc : Option Nat × Str),
      (L.foldl (fuzzyStep key) acc).1 =
        L.foldl (fun a e =>
          match a with
          | none => some (levenshtein_distance key e.1)
          | some m => some (min m (levenshtein_distance key e.1))) acc.1 := by
  intro L
  induction L with
  | nil => intro acc; rfl
  | cons e L ih =>
      intro acc
      rw [List.foldl_cons, List.foldl_cons, ih, fuzzyStep_fst]

theorem fuzzyFold_fst_min (key : Str) (vmap : List (Str × Str)) (init : Str) :
    (vmap.foldl (fuzzyStep key) (none, init)).1 = minDistOf key vmap := by
  rw [fuzzyFold_fst]; rfl

theorem minDistOf_le (key : Str) :
    ∀ (L : List (Str × Str)) (a : Option Nat) (m : Nat),
      L.foldl (fun a e =>
        match a with
        | none => some (levenshtein_distance key e.1)
        | some m => some (min m (levenshtein_distance key e.1))) a = some m →
      (∀ x, a = some x → m ≤ x) ∧ ∀ e ∈ L, m ≤ levenshtein_distance key e.1 := by
  intro L
  induction L with
  | nil =>
      intro a m h
      simp only [List.foldl_nil] at h
      subst h
      exact ⟨fun x hx => by cases hx; exact le_refl _, by simp⟩
  | cons e L ih =>
      intro a m h
      rw [List.foldl_cons] at h
      obtain ⟨h1, h2⟩ := ih _ _ h
      have hstep : ∀ x, a = some x → m ≤ x := by
        intro x hx
        subst hx
        have := h1 (min x (levenshtein_distance key e.1)) rfl
        omega
      have hhead : m ≤ levenshtein_distance key e.1 := by
        cases a with
        | none => exact (h1 _ rfl).trans (le_refl _)
        | some x =>
            have := h1 (min x (levenshtein_distance key e.1)) rfl
            omega
      refine ⟨hstep, ?_⟩
      intro e' he'
      rcases List.mem_cons.mp he' with h' | h'
      · subst h'; exact hhead
      · exact h2 e' h'

theorem minDistOf_none_iff (key : Str) :
    ∀ L : List (Str × Str), minDistOf key L = none ↔ L = [] := by
  have go : ∀ (L : List (Str × Str)) (x : Nat),
      L.foldl (fun a e =>
        match a with
        | none => some (levenshtein_distance key e.1)
        | some m => some (min m (levenshtein_distance key e.1))) (some x) ≠ none := by
    intro L
    induction L with
    | nil => intro x h; cases h
    | cons e L ih => intro x h; exact ih _ h
  intro L
  cases L with
  | nil => simp [minDistOf]
  | cons e L =>
      simp only [minDistOf, List.foldl_cons]
      constructor
      · intro h; exact absurd h (go L _)
      · intro h; cases h

theorem fuzzyFold_snd (key : Str) (P : Str × Str → Prop) :
    ∀ (L : List (Str × Str)) (acc : Option Nat × Str),
      (∀ e ∈ L, P e) →
      (∀ m, acc.1 = some m →
        ∃ e, P e ∧ levenshtein_distance key e.1 = m ∧ acc.2 = e.2) →
      ∀ m, (L.foldl (fuzzyStep key) acc).1 = some m →
        ∃ e, P e ∧ levenshtein_distance key e.1 = m ∧
          (L.foldl (fuzzyStep key) acc).2 = e.2 := by
  intro L
  induction L with
  | nil => intro acc _ hacc; exact hacc
  | cons e L ih =>
      intro acc hL hacc
      rw [List.foldl_cons]
      apply ih
      · intro x hx; exact hL x (List.mem_cons_of_mem _ hx)
      · intro m hm
        have hPe : P e := hL e (List.mem_cons_self _ _)
        rcases acc with ⟨a, prop⟩
        cases a with
        | none =>
            simp only [fuzzyStep] at hm ⊢
            cases hm
            exact ⟨e, hPe, rfl, rfl⟩
        | some m0 =>
            simp only [fuzzyStep] at hm ⊢
            by_cases h1 : levenshtein_distance key e.1 < m0
            · rw [if_pos h1] at hm ⊢
              cases hm
              exact ⟨e, hPe, rfl, rfl⟩
            · rw [if_neg h1] at hm ⊢
              by_cases h2 : levenshtein_distance key e.1 = m0 ∧
                  e.1.length < (normalize_string prop).length
              · rw [if_pos h2] at hm ⊢
                cases hm
                exact ⟨e, hPe, rfl, rfl⟩
              · rw [if_neg h2] at hm ⊢
                cases hm
                exact hacc _ rfl

theorem proposeName_exact (vmap : List (Str × Str)) (thr : Nat) (cur disp : Str)
    (h : lookupKey vmap (normalize_string cur) = some disp) :
    proposeName vmap thr cur = disp := by
  simp only [proposeName, h]

theorem proposeName_fuzzy (vmap : List (Str × Str)) (thr : Nat) (cur : Str) (m : Nat)
    (hl : lookupKey vmap (normalize_string cur) = none)
    (hm : minDistOf (normalize_string cur) vmap = some m)
    (hthr : m ≤ thr) :
    ∃ e ∈ vmap, levenshtein_distance (normalize_string cur) e.1 = m ∧
      proposeName vmap thr cur = e.2 := by
  have hfst := fuzzyFold_fst_min (normalize_string cur) vmap (to_title_case cur)
  rw [hm] at hfst
  obtain ⟨e, he, hde, hse⟩ :=
    fuzzyFold_snd (normalize_string cur) (fun e => e ∈ vmap) vmap
      (none, to_title_case cur) (fun e he => he) (by intro m hm'; cases hm') m hfst
  refine ⟨e, he, hde, ?_⟩
  simp only [proposeName, hl, hfst]
  rw [if_neg (by omega)]
  exact hse

theorem proposeName_fallback (vmap : List (Str × Str)) (thr : Nat) (cur : Str)
    (hl : lookupKey vmap (normalize_string cur) = none)
    (hm : minDistOf (normalize_string cur) vmap = none ∨
      ∃ m, minDistOf (normalize_string cur) vmap = some m ∧ thr < m) :
    proposeName vmap thr cur = to_title_case cur := by
  have hfst := fuzzyFold_fst_min (normalize_string cur) vmap (to_title_case cur)
  rcases hm with h | ⟨m, h, hthr⟩
  · rw [h] at hfst
    simp only [proposeName, hl, hfst]
  · rw [h] at hfst
    simp only [proposeName, hl, hfst]
    rw [if_pos hthr]

theorem bool_eq_of_iff {a b : Bool} (h : a = true ↔ b = true) : a = b := by
  cases a <;> cases b <;> simp_all

theorem lowerCp_lowerCp (c : Nat) : lowerCp (lowerCp c) = lowerCp c := by
  unfold lowerCp isUpperAlpha
  simp only [decide_eq_true_eq]
  split_ifs <;> omega

theorem lowerCp_upperCp (c : Nat) : lowerCp (upperCp c) = lowerCp c := by
  unfold lowerCp upperCp isUpperAlpha isLowerAlpha
  simp only [decide_eq_true_eq]
  split_ifs <;> omega

theorem isAlnumCp_lowerCp (c : Nat) : isAlnumCp (lowerCp c) = isAlnumCp c := by
  apply bool_eq_of_iff
  unfold lowerCp isAlnumCp isUpperAlpha isLowerAlpha isDigitCp
  simp only [Bool.or_eq_true, decide_eq_true_eq]
  split_ifs <;> omega

theorem isAlnumCp_upperCp (c : Nat) : isAlnumCp (upperCp c) = isAlnumCp c := by
  apply bool_eq_of_iff
  unfold upperCp isAlnumCp isUpperAlpha isLowerAlpha isDigitCp
  simp only [Bool.or_eq_true, decide_eq_true_eq]
  split_ifs <;> omega

theorem not_space_of_alnum (c : Nat) (h : isAlnumCp c = true) : isSpaceCp c = false := by
  unfold isAlnumCp isUpperAlpha isLowerAlpha isDigitCp at h
  simp only [Bool.or_eq_true, decide_eq_true_eq] at h
  unfold isSpaceCp
  exact decide_eq_false (by omega)

theorem word_of_alnum (c : Nat) (h : isAlnumCp c = true) : isWordCp c = true := by
  simp [isWordCp, h]

theorem normalize_append (s t : Str) :
    normalize_string (s ++ t) = normalize_string s ++ normalize_string t := by
  simp [normalize_string]

theorem normalize_cons (c : Nat) (s : Str) :
    normalize_string (c :: s) =
      (if isAlnumCp c then [lowerCp c] else []) ++ normalize_string s := by
  simp only [normalize_string, List.filter_cons]
  by_cases h : isAlnumCp c = true
  · rw [if_pos h, if_pos h]
    rfl
  · rw [if_neg h, if_neg h]
    rfl

theorem normalize_displayFormGo (u : Str) :
    ∀ b, normalize_string (displayFormGo b u) = normalize_string u := by
  induction u with
  | nil => intro b; rfl
  | cons c cs ih =>
      intro b
      by_cases hc : c = 32
      · subst hc
        have hgo : displayFormGo b (32 :: cs) = 32 :: displayFormGo true cs := by
          simp [displayFormGo]
        rw [hgo, normalize_cons, normalize_cons, ih true]
      · have hgo : displayFormGo b (c :: cs) =
            (if b then upperCp c else lowerCp c) :: displayFormGo false cs := by
          simp [displayFormGo, hc]
        rw [hgo]
        cases b with
        | true =>
            rw [if_pos rfl, normalize_cons, normalize_cons, ih false,
              isAlnumCp_upperCp, lowerCp_upperCp]
        | false =>
            rw [if_neg (by simp), normalize_cons, normalize_cons, ih false,
              isAlnumCp_lowerCp, lowerCp_lowerCp]

theorem normalize_replaceHyphens (s : Str) :
    normalize_string (replaceHyphens s) = normalize_string s := by
  induction s with
  | nil => rfl
  | cons c s ih =>
      have hmap : replaceHyphens (c :: s) =
          (if c = 45 then 32 else c) :: replaceHyphens s := rfl
      rw [hmap]
      by_cases h : c = 45
      · subst h
        rw [if_pos rfl, normalize_cons, normalize_cons, ih,
          show isAlnumCp 32 = false from rfl, show isAlnumCp 45 = false from rfl]
        rfl
      · rw [if_neg h, normalize_cons, normalize_cons, ih]

theorem normalize_title (s : Str) :
    normalize_string (to_title_case s) = normalize_string s := by
  by_cases h : s = []
  · subst h; rfl
  · rw [to_title_case, if_neg h, ← (displayFormGo_spec (replaceHyphens s)).1,
      normalize_displayFormGo, normalize_replaceHyphens]

theorem pyStrip_nil_all_space (s : Str) (h : pyStrip s = []) :
    ∀ c ∈ s, isSpaceCp c = true := by
  unfold pyStrip at h
  rw [List.reverse_eq_nil_iff] at h
  have h3 : ∀ a ∈ s.dropWhile isSpaceCp, isSpaceCp a = true := fun a ha =>
    List.dropWhile_eq_nil_iff.mp h a (List.mem_reverse.mpr ha)
  intro c hc
  rw [← List.takeWhile_append_dropWhile isSpaceCp s] at hc
  rcases List.mem_append.mp hc with h' | h'
  · exact List.mem_takeWhile_imp h'
  · exact h3 c h'

theorem mem_alnum_of_normalize_ne_nil (s : Str) (h : normalize_string s ≠ []) :
    ∃ c ∈ s, isAlnumCp c = true := by
  by_contra hcon
  push_neg at hcon
  apply h
  unfold normalize_string
  rw [List.filter_eq_nil_iff.mpr (fun a ha hp => (hcon a ha) hp)]
  rfl

theorem not_junk_of_normalize_ne_nil (s : Str) (h : normalize_string s ≠ []) :
    isJunkStr s = false := by
  obtain ⟨c, hc, hcal⟩ := mem_alnum_of_normalize_ne_nil s h
  unfold isJunkStr
  have h1 : s.isEmpty = false := by
    rw [List.isEmpty_eq_false]
    intro hnil
    subst hnil
    cases hc
  have h2 : (pyStrip s).isEmpty = false := by
    cases hps : pyStrip s with
    | nil =>
        exfalso
        have := pyStrip_nil_all_space s hps c hc
        rw [not_space_of_alnum c hcal] at this
        cases this
    | cons a l => rfl
  have h3 : junk_pattern_match s = false := by
    unfold junk_pattern_match
    have hw : s.all (fun c => ! isWordCp c) = false := by
      rw [List.all_eq_false]
      exact ⟨c, hc, by rw [word_of_alnum c hcal]; simp⟩
    have hsp : s.all isSpaceCp = false := by
      rw [List.all_eq_false]
      exact ⟨c, hc, by rw [not_space_of_alnum c hcal]; simp⟩
    rw [hw, hsp]
    rfl
  rw [h1, h2, h3]
  rfl

theorem containsKey_iff (m : List (Str × Str)) (k : Str) :
    (m.any (fun e => decide (e.1 = k)) = true) ↔ k ∈ m.map Prod.fst := by
  rw [List.any_eq_true]
  constructor
  · rintro ⟨e, he, hp⟩
    rw [decide_eq_true_eq] at hp
    exact List.mem_map.mpr ⟨e, he, hp⟩
  · rintro h
    obtain ⟨e, he, hp⟩ := List.mem_map.mp h
    exact ⟨e, he, by rw [decide_eq_true_eq]; exact hp⟩

theorem dictInsert_keys_nodup (m : List (Str × Str)) (k v : Str)
    (h : (m.map Prod.fst).Nodup) : ((dictInsert m k v).map Prod.fst).Nodup := by
  unfold dictInsert
  split_ifs with hp
  · have heq : (m.map (fun e => if e.1 = k then (e.1, v) else e)).map Prod.fst =
        m.map Prod.fst := by
      rw [List.map_map]
      apply List.map_congr_left
      intro e he
      by_cases h1 : e.1 = k <;> simp [h1]
    rw [heq]
    exact h
  · rw [List.map_append, List.nodup_append]
    refine ⟨h, by simp, ?_⟩
    intro a ha hb
    simp only [List.map_cons, List.map_nil, List.mem_singleton] at hb
    subst hb
    exact hp ((containsKey_iff m a).mpr ha)

theorem dictInsert_entries (m : List (Str × Str)) (k v : Str) (Q : Str × Str → Prop)
    (hm : ∀ e ∈ m, Q e) (hq : Q (k, v)) : ∀ e ∈ dictInsert m k v, Q e := by
  intro e he
  unfold dictInsert at he
  split_ifs at he with hp
  · obtain ⟨e0, he0, heq⟩ := List.mem_map.mp he
    by_cases h1 : e0.1 = k
    · rw [if_pos h1] at heq
      subst heq
      rw [h1]
      exact hq
    · rw [if_neg h1] at heq
      subst heq
      exact hm e0 he0
  · rcases List.mem_append.mp he with h' | h'
    · exact hm e h'
    · rw [List.mem_singleton] at h'
      subst h'
      exact hq

theorem dictInsert_key_present (m : List (Str × Str)) (k v : Str) :
    ∃ d, (k, d) ∈ dictInsert m k v := by
  unfold dictInsert
  split_ifs with hp
  · obtain ⟨e, he, hp'⟩ := List.any_eq_true.mp hp
    have hek : e.1 = k := decide_eq_true_eq.mp hp'
    refine ⟨v, List.mem_map.mpr ⟨e, he, ?_⟩⟩
    rw [if_pos hek, hek]
  · exact ⟨v, List.mem_append.mpr (Or.inr (List.mem_singleton.mpr rfl))⟩

theorem dictInsert_preserves_key (m : List (Str × Str)) (k v k0 : Str)
    (h : ∃ d, (k0, d) ∈ m) : ∃ d, (k0, d) ∈ dictInsert m k v := by
  obtain ⟨d, hd⟩ := h
  unfold dictInsert
  split_ifs with hp
  · by_cases h1 : k0 = k
    · refine ⟨v, List.mem_map.mpr ⟨(k0, d), hd, ?_⟩⟩
      rw [if_pos (show (k0, d).1 = k from h1)]
    · refine ⟨d, List.mem_map.mpr ⟨(k0, d), hd, ?_⟩⟩
      rw [if_neg (show ¬(k0, d).1 = k from h1)]
  · exact ⟨d, List.mem_append.mpr (Or.inl hd)⟩

theorem buildValidMap_fold_inv (raws0 : List Str) :
    ∀ (L : List Str) (m : List (Str × Str)),
      (m.map Prod.fst).Nodup →
      (∀ e ∈ m, ∃ n ∈ raws0, e.1 = normalize_string n ∧ e.2 = to_title_case n) →
      (∀ n ∈ L, n ∈ raws0) →
      (((L.foldl (fun m n => dictInsert m (normalize_string n) (to_title_case n)) m).map
          Prod.fst).Nodup ∧
        (∀ e ∈ L.foldl (fun m n => dictInsert m (normalize_string n) (to_title_case n)) m,
          ∃ n ∈ raws0, e.1 = normalize_string n ∧ e.2 = to_title_case n) ∧
        (∀ n ∈ L, ∃ d, (normalize_string n, d) ∈
          L.foldl (fun m n => dictInsert m (normalize_string n) (to_title_case n)) m) ∧
        (∀ k, (∃ d, (k, d) ∈ m) → ∃ d, (k, d) ∈
          L.foldl (fun m n => dictInsert m (normalize_string n) (to_title_case n)) m)) := by
  intro L
  induction L with
  | nil =>
      intro m h1 h2 _
      exact ⟨h1, h2, by simp, fun k hk => hk⟩
  | cons n L ih =>
      intro m h1 h2 hL
      rw [List.foldl_cons]
      have hn : n ∈ raws0 := hL n (List.mem_cons_self _ _)
      have h1' := dictInsert_keys_nodup m (normalize_string n) (to_title_case n) h1
      have h2' := dictInsert_entries m (normalize_string n) (to_title_case n) _ h2
        ⟨n, hn, rfl, rfl⟩
      have hL' : ∀ x ∈ L, x ∈ raws0 := fun x hx => hL x (List.mem_cons_of_mem _ hx)
      obtain ⟨c1, c2, c3, c4⟩ := ih _ h1' h2' hL'
      refine ⟨c1, c2, ?_, ?_⟩
      · intro x hx
        rcases List.mem_cons.mp hx with h' | h'
        · subst h'
          exact c4 _ (dictInsert_key_present m _ _)
        · exact c3 x h'
      · intro k hk
        exact c4 k (dictInsert_preserves_key m _ _ k hk)

theorem buildValidMap_nodup (raws : List Str) :
    ((buildValidMap raws).map Prod.fst).Nodup :=
  (buildValidMap_fold_inv raws raws [] (by simp) (by simp) (fun _ h => h)).1

theorem buildValidMap_mem (raws : List Str) :
    ∀ e ∈ buildValidMap raws,
      ∃ n ∈ raws, e.1 = normalize_string n ∧ e.2 = to_title_case n :=
  (buildValidMap_fold_inv raws raws [] (by simp) (by simp) (fun _ h => h)).2.1

theorem buildValidMap_complete (raws : List Str) :
    ∀ n ∈ raws, ∃ d, (normalize_string n, d) ∈ buildValidMap raws :=
  (buildValidMap_fold_inv raws raws [] (by simp) (by simp) (fun _ h => h)).2.2.1

theorem lookupKey_some_mem (m : List (Str × Str)) (k d : Str)
    (h : lookupKey m k = some d) : (k, d) ∈ m := by
  unfold lookupKey at h
  cases hf : m.find? (fun e => decide (e.1 = k)) with
  | none => rw [hf] at h; cases h
  | some e =>
      rw [hf] at h
      have he : e ∈ m := List.mem_of_find?_eq_some hf
      have hk : e.1 = k := by
        have := List.find?_some hf
        rwa [decide_eq_true_eq] at this
      have hd : e.2 = d := by
        simp only [Option.map_some'] at h
        exact Option.some.inj h
      have : e = (k, d) := by
        rcases e with ⟨a, b⟩
        simp only at hk hd
        rw [hk, hd]
      rwa [this] at he

theorem lookupKey_of_mem (m : List (Str × Str)) (hnd : (m.map Prod.fst).Nodup)
    (k d : Str) (h : (k, d) ∈ m) : lookupKey m k = some d := by
  induction m with
  | nil => cases h
  | cons e m ih =>
      rw [List.map_cons] at hnd
      have hnd' := (List.nodup_cons.mp hnd).2
      have hke := (List.nodup_cons.mp hnd).1
      unfold lookupKey
      by_cases h1 : e.1 = k
      · rw [List.find?_cons_of_pos _ (by rw [decide_eq_true_eq]; exact h1)]
        rcases List.mem_cons.mp h with h' | h'
        · rw [← h']
          rfl
        · exfalso
          apply hke
          rw [h1]
          exact List.mem_map.mpr ⟨(k, d), h', rfl⟩
      · rw [List.find?_cons_of_neg _ (by rw [decide_eq_true_eq]; exact h1)]
        rcases List.mem_cons.mp h with h' | h'
        · exfalso
          apply h1
          rw [← h']
        · exact ih hnd' h'

theorem tableRows_updateFkCol (db : DB) (a : TblName) (c : ColName)
    (f : Option Nat → Option Nat) (t : TblName) :
    tableRows (updateFkCol db a c f) t = tableRows db t := by
  cases a <;> cases c <;> cases t <;> simp [updateFkCol, tableRows, List.map_map]

theorem tableRows_fkFold (db : DB) (t0 : TblName) (f : Option Nat → Option Nat) (t : TblName) :
    tableRows (fkFold db t0 f) t = tableRows db t := by
  unfold fkFold
  generalize fk_relationships = L
  induction L generalizing db with
  | nil => rfl
  | cons e L ih =>
      rw [List.foldl_cons]
      rw [ih]
      by_cases h : e.2.2 = t0
      · rw [if_pos h, tableRows_updateFkCol]
      · rw [if_neg h]

theorem tableRows_nullify (db : DB) (i : Nat) (t0 t : TblName) :
    tableRows (nullify_fks_referencing_id db i t0) t = tableRows db t := by
  unfold nullify_fks_referencing_id
  exact tableRows_fkFold db t0 _ t

theorem tableRows_remap (db : DB) (c : Nat) (dups : List Nat) (t0 t : TblName) :
    tableRows (remap_fks_referencing db c dups t0) t = tableRows db t := by
  unfold remap_fks_referencing
  exact tableRows_fkFold db t0 _ t

theorem tableRows_deleteById_self (db : DB) (t : TblName) (i : Nat) :
    tableRows (deleteById db t i) t =
      (tableRows db t).filter (fun r => decide (r.1 ≠ i)) := by
  cases t <;>
    simp only [deleteById, tableRows, List.filter_map, List.filter_nil, List.map_nil]
  all_goals rfl

theorem tableRows_deleteById_other (db : DB) (t' t : TblName) (h : t' ≠ t) (i : Nat) :
    tableRows (deleteById db t' i) t = tableRows db t := by
  cases t' <;> cases t <;> first | (exact absurd rfl h) | simp [deleteById, tableRows]

theorem tableRows_removeIds_self (db : DB) (t : TblName) (dups : List Nat) :
    tableRows (removeIds db t dups) t =
      (tableRows db t).filter (fun r => decide (r.1 ∉ dups)) := by
  cases t <;>
    simp only [removeIds, tableRows, List.filter_map, List.filter_nil, List.map_nil]
  all_goals rfl

theorem tableRows_removeIds_other (db : DB) (t' t : TblName) (h : t' ≠ t) (dups : List Nat) :
    tableRows (removeIds db t' dups) t = tableRows db t := by
  cases t' <;> cases t <;> first | (exact absurd rfl h) | simp [removeIds, tableRows]

theorem tableRows_setName_self (db : DB) (t : TblName) (i : Nat) (nm : Option Str) :
    tableRows (setName db t i nm) t =
      (tableRows db t).map (fun r => if r.1 = i then (r.1, nm) else r) := by
  cases t <;>
    · simp only [setName, tableRows, List.map_map, List.map_nil]
      try
        apply List.map_congr_left
        intro r _
        by_cases h : r.id = i
        · simp [h, Function.comp]
        · simp [h, Function.comp]

theorem tableRows_setName_other (db : DB) (t' t : TblName) (h : t' ≠ t) (i : Nat)
    (nm : Option Str) :
    tableRows (setName db t' i nm) t = tableRows db t := by
  cases t' <;> cases t <;> first | (exact absurd rfl h) | simp [setName, tableRows]

theorem fkFold_types_eq (db : DB) (f : Option Nat → Option Nat) :
    fkFold db .types f =
      { db with pokemon := db.pokemon.map (fun r =>
          { r with type1_id := f r.type1_id, type2_id := f r.type2_id }) } := by
  unfold fkFold fk_relationships
  simp [updateFkCol, List.map_map]

theorem fkFold_pokemon_eq (db : DB) (f : Option Nat → Option Nat) :
    fkFold db .pokemon f =
      { db with tpa := db.tpa.map (fun r => { r with pokemon_id := f r.pokemon_id }) } := by
  unfold fkFold fk_relationships
  simp [updateFkCol]

theorem fkFold_trainers_eq (db : DB) (f : Option Nat → Option Nat) :
    fkFold db .trainers f =
      { db with tpa := db.tpa.map (fun r => { r with trainer_id := f r.trainer_id }) } := by
  unfold fkFold fk_relationships
  simp [updateFkCol]

theorem fkFold_abilities_eq (db : DB) (f : Option Nat → Option Nat) :
    fkFold db .abilities f =
      { db with tpa := db.tpa.map (fun r => { r with ability_id := f r.ability_id }) } := by
  unfold fkFold fk_relationships
  simp [updateFkCol]

theorem fkFold_tpa_eq (db : DB) (f : Option Nat → Option Nat) :
    fkFold db .trainer_pokemon_abilities f = db := by
  unfold fkFold fk_relationships
  simp [updateFkCol]

theorem lookupKey_none_iff (m : List (Str × Str)) (k : Str) :
    lookupKey m k = none ↔ k ∉ m.map Prod.fst := by
  unfold lookupKey
  rw [Option.map_eq_none', List.find?_eq_none]
  constructor
  · intro h hk
    obtain ⟨e, he, hek⟩ := List.mem_map.mp hk
    exact (h e he) (by rw [decide_eq_true_eq]; exact hek)
  · intro h e he hp
    rw [decide_eq_true_eq] at hp
    exact h (List.mem_map.mpr ⟨e, he, hp⟩)

theorem delFold_self (t : TblName) :
    ∀ (L : List (Nat × Option Str)) (db : DB),
      tableRows
        (L.foldl (fun d r => deleteById (nullify_fks_referencing_id d r.1 t) t r.1) db) t =
      (tableRows db t).filter (fun r => decide (r.1 ∉ L.map Prod.fst)) := by
  intro L
  induction L with
  | nil =>
      intro db
      simp
  | cons x L ih =>
      intro db
      rw [List.foldl_cons, ih, tableRows_deleteById_self, tableRows_nullify,
        List.filter_filter]
      apply List.filter_congr
      intro r _
      apply bool_eq_of_iff
      simp only [Bool.and_eq_true, decide_eq_true_eq, List.map_cons, List.mem_cons]
      tauto

theorem delFold_other (t t' : TblName) (h : t ≠ t') :
    ∀ (L : List (Nat × Option Str)) (db : DB),
      tableRows
        (L.foldl (fun d r => deleteById (nullify_fks_referencing_id d r.1 t) t r.1) db) t' =
      tableRows db t' := by
  intro L
  induction L with
  | nil => intro db; rfl
  | cons x L ih =>
      intro db
      rw [List.foldl_cons, ih, tableRows_deleteById_other _ _ _ h, tableRows_nullify]

theorem step3_tableRows_other (v : Vocab) (db : DB) (t t' : TblName) (h : t ≠ t') :
    tableRows (step3_table v db t) t' = tableRows db t' := by
  unfold step3_table
  exact delFold_other t t' h _ db

theorem step3_mem (v : Vocab) (db : DB) (t : TblName) :
    ∀ r ∈ tableRows (step3_table v db t) t,
      r ∈ tableRows db t ∧ ∃ nm, r.2 = some nm ∧ nm ∈ validSetFor v t := by
  intro r hr
  simp only [step3_table] at hr
  rw [delFold_self] at hr
  obtain ⟨hmem, hpred⟩ := List.mem_filter.mp hr
  rw [decide_eq_true_eq] at hpred
  refine ⟨hmem, ?_⟩
  by_contra hbad
  push_neg at hbad
  apply hpred
  apply List.mem_map.mpr
  refine ⟨r, ?_, rfl⟩
  apply List.mem_filter.mpr
  refine ⟨hmem, ?_⟩
  cases hnm : r.2 with
  | none => rfl
  | some nm =>
      rw [decide_eq_true_eq]
      intro hin
      exact absurd hin (hbad nm hnm)

theorem step3_id_of_good (v : Vocab) (db : DB) (t : TblName)
    (h : ∀ r ∈ tableRows db t, ∃ nm, r.2 = some nm ∧ nm ∈ validSetFor v t) :
    step3_table v db t = db := by
  have hnil : (tableRows db t).filter (fun r =>
      match r.2 with
      | none => true
      | some nm => decide (nm ∉ validSetFor v t)) = [] := by
    rw [List.filter_eq_nil_iff]
    intro r hr
    obtain ⟨nm, hnm, hin⟩ := h r hr
    rw [hnm]
    simp [hin]
  simp only [step3_table]
  rw [hnil]
  rfl

theorem step4_group_tableRows_self (db : DB) (t : TblName) (c : Nat) (ids : List Nat) :
    tableRows (step4_group db t c ids) t =
      (tableRows db t).filter
        (fun r => decide (r.1 ∉ ids.filter (fun x => decide (x ≠ c)))) := by
  simp only [step4_group]
  split_ifs with h
  · rw [h]
    simp
  · rw [tableRows_removeIds_self, tableRows_remap]

theorem step4_group_tableRows_other (db : DB) (t t' : TblName) (h : t ≠ t')
    (c : Nat) (ids : List Nat) :
    tableRows (step4_group db t c ids) t' = tableRows db t' := by
  simp only [step4_group]
  split_ifs with h0
  · rfl
  · rw [tableRows_removeIds_other _ _ _ h, tableRows_remap]

theorem step4_fold_self (t : TblName) :
    ∀ (gs : List (Nat × List Nat)) (db : DB),
      tableRows (gs.foldl (fun d g => step4_group d t g.1 g.2) db) t =
        (tableRows db t).filter
          (fun r => decide (∀ g ∈ gs, r.1 ∉ g.2.filter (fun x => decide (x ≠ g.1)))) := by
  intro gs
  induction gs with
  | nil =>
      intro db
      simp
  | cons g gs ih =>
      intro db
      rw [List.foldl_cons, ih, step4_group_tableRows_self, List.filter_filter]
      apply List.filter_congr
      intro r _
      apply bool_eq_of_iff
      simp only [Bool.and_eq_true, decide_eq_true_eq, List.mem_cons]
      constructor
      · rintro ⟨hall, hg⟩ g' hg'
        rcases hg' with h' | h'
        · subst h'; exact hg
        · exact hall g' h'
      · intro hall
        exact ⟨fun g' h' => hall g' (Or.inr h'), hall g (Or.inl rfl)⟩

theorem step4_table_self (db : DB) (t : TblName) :
    tableRows (step4_table db t) t =
      (tableRows db t).filter
        (fun r => decide (∀ g ∈ dupGroups db t,
          r.1 ∉ g.2.filter (fun x => decide (x ≠ g.1)))) := by
  unfold step4_table
  exact step4_fold_self t _ db

theorem step4_table_other (db : DB) (t t' : TblName) (h : t ≠ t') :
    tableRows (step4_table db t) t' = tableRows db t' := by
  unfold step4_table
  generalize dupGroups db t = gs
  induction gs generalizing db with
  | nil => rfl
  | cons g gs ih =>
      rw [List.foldl_cons, ih, step4_group_tableRows_other _ _ _ h]

theorem tableRows_condUpdateName_other (db : DB) (t t' : TblName) (h : t ≠ t')
    (i : Nat) (nm : Str) :
    tableRows (condUpdateName db t i nm) t' = tableRows db t' := by
  cases hf : (tableRows db t).find? (fun r => decide (r.1 = i)) with
  | none => simp only [condUpdateName, hf]
  | some r0 =>
      simp only [condUpdateName, hf]
      split_ifs with h0
      · exact tableRows_setName_other db t t' h i (some nm)
      · rfl

theorem ids_setName (db : DB) (t : TblName) (i : Nat) (nm : Option Str) :
    (tableRows (setName db t i nm) t).map Prod.fst = (tableRows db t).map Prod.fst := by
  rw [tableRows_setName_self, List.map_map]
  apply List.map_congr_left
  intro r _
  by_cases h : r.1 = i <;> simp [h, Function.comp]

theorem ids_condUpdateName (db : DB) (t : TblName) (i : Nat) (nm : Str) :
    (tableRows (condUpdateName db t i nm) t).map Prod.fst =
      (tableRows db t).map Prod.fst := by
  cases hf : (tableRows db t).find? (fun r => decide (r.1 = i)) with
  | none => simp only [condUpdateName, hf]
  | some r0 =>
      simp only [condUpdateName, hf]
      split_ifs with h0
      · exact ids_setName db t i (some nm)
      · rfl

theorem updFold_other (t t' : TblName) (h : t ≠ t') :
    ∀ (U : List (Nat × Str)) (db : DB),
      tableRows (U.foldl (fun d u => condUpdateName d t u.1 u.2) db) t' =
        tableRows db t' := by
  intro U
  induction U with
  | nil => intro db; rfl
  | cons u U ih =>
      intro db
      rw [List.foldl_cons, ih, tableRows_condUpdateName_other _ _ _ h]

theorem updFold_ids (t : TblName) :
    ∀ (U : List (Nat × Str)) (db : DB),
      (tableRows (U.foldl (fun d u => condUpdateName d t u.1 u.2) db) t).map Prod.fst =
        (tableRows db t).map Prod.fst := by
  intro U
  induction U with
  | nil => intro db; rfl
  | cons u U ih =>
      intro db
      rw [List.foldl_cons, ih, ids_condUpdateName]

theorem updFold_good (t : TblName) (G : Option Str → Prop) :
    ∀ (U : List (Nat × Str)) (db : DB),
      ((tableRows db t).map Prod.fst).Nodup →
      (∀ u ∈ U, G (some u.2)) →
      (∀ r ∈ tableRows db t, G r.2 ∨ ∃ u ∈ U, u.1 = r.1) →
      ∀ r ∈ tableRows (U.foldl (fun d u => condUpdateName d t u.1 u.2) db) t, G r.2 := by
  intro U
  induction U with
  | nil =>
      intro db _ _ h3 r hr
      rcases h3 r hr with h | ⟨u, hu, _⟩
      · exact h
      · cases hu
  | cons u U ih =>
      intro db hnd hU h3
      rw [List.foldl_cons]
      apply ih
      · rw [ids_condUpdateName]
        exact hnd
      · intro x hx
        exact hU x (List.mem_cons_of_mem _ hx)
      · -- invariant after one conditional update
        intro r' hr'
        cases hf : (tableRows db t).find? (fun x => decide (x.1 = u.1)) with
        | none =>
            simp only [condUpdateName, hf] at hr'
            rcases h3 r' hr' with h | ⟨u', hu', he⟩
            · exact Or.inl h
            · rcases List.mem_cons.mp hu' with h' | h'
              · exfalso
                subst h'
                have := List.find?_eq_none.mp hf r' hr'
                rw [decide_eq_true_eq] at this
                exact this he.symm
              · exact Or.inr ⟨u', h', he⟩
        | some r0 =>
            simp only [condUpdateName, hf] at hr'
            have hr0mem : r0 ∈ tableRows db t := List.mem_of_find?_eq_some hf
            have hr0id : r0.1 = u.1 := by
              have := List.find?_some hf
              rwa [decide_eq_true_eq] at this
            by_cases h0 : r0.2 ≠ some u.2
            · rw [if_pos h0] at hr'
              rw [tableRows_setName_self] at hr'
              obtain ⟨r, hr, hre⟩ := List.mem_map.mp hr'
              by_cases hid : r.1 = u.1
              · rw [if_pos hid] at hre
                subst hre
                exact Or.inl (hU u (List.mem_cons_self _ _))
              · rw [if_neg hid] at hre
                subst hre
                rcases h3 r hr with h | ⟨u', hu', he⟩
                · exact Or.inl h
                · rcases List.mem_cons.mp hu' with h' | h'
                  · exfalso
                    subst h'
                    exact hid he.symm
                  · exact Or.inr ⟨u', h', he⟩
            · rw [if_neg h0] at hr'
              push_neg at h0
              rcases h3 r' hr' with h | ⟨u', hu', he⟩
              · exact Or.inl h
              · rcases List.mem_cons.mp hu' with h' | h'
                · subst h'
                  have : r' = r0 :=
                    List.inj_on_of_nodup_map hnd hr' hr0mem (by rw [← he, hr0id])
                  rw [this, h0]
                  exact Or.inl (hU u' (List.mem_cons_self _ _))
                · exact Or.inr ⟨u', h', he⟩

theorem step2_tableRows_other (v : Vocab) (db : DB) (t t' : TblName) (h : t ≠ t') :
    tableRows (step2_table v db t) t' = tableRows db t' := by
  simp only [step2_table]
  rw [updFold_other t t' h, delFold_other t t' h]

theorem uniqueIds_tableRows (db : DB) (h : UniqueIds db) :
    ∀ t, ((tableRows db t).map Prod.fst).Nodup := by
  obtain ⟨h1, h2, h3, h4⟩ := h
  intro t
  cases t <;> simp only [tableRows, List.map_map, List.map_nil, List.nodup_nil]
  · exact h1
  · exact h2
  · exact h3
  · exact h4

theorem step2_ids (v : Vocab) (db : DB) (t : TblName) :
    (tableRows (step2_table v db t) t).map Prod.fst =
      (((tableRows db t).filter (fun r => decide (r.1 ∉
        (((tableRows db t).filter (fun r => isJunkName r.2)).map Prod.fst)))).map
          Prod.fst) := by
  simp only [step2_table]
  rw [updFold_ids, delFold_self]

theorem step2_nonjunk_id_survives (v : Vocab) (db : DB) (t : TblName)
    (hnd : ((tableRows db t).map Prod.fst).Nodup) :
    ∀ r ∈ tableRows db t, isJunkName r.2 = false →
      r.1 ∈ (tableRows (step2_table v db t) t).map Prod.fst := by
  intro r hr hj
  rw [step2_ids]
  apply List.mem_map.mpr
  refine ⟨r, ?_, rfl⟩
  apply List.mem_filter.mpr
  refine ⟨hr, ?_⟩
  rw [decide_eq_true_eq]
  intro hbad
  obtain ⟨rj, hrjmem, hrjid⟩ := List.mem_map.mp hbad
  obtain ⟨hrjrows, hrjjunk⟩ := List.mem_filter.mp hrjmem
  have : rj = r := List.inj_on_of_nodup_map hnd hrjrows hr hrjid
  rw [this] at hrjjunk
  rw [hj] at hrjjunk
  cases hrjjunk

theorem step2_junk_id_deleted (v : Vocab) (db : DB) (t : TblName) :
    ∀ r ∈ tableRows db t, isJunkName r.2 = true →
      r.1 ∉ (tableRows (step2_table v db t) t).map Prod.fst := by
  intro r hr hj hbad
  rw [step2_ids] at hbad
  obtain ⟨r', hr'mem, hr'id⟩ := List.mem_map.mp hbad
  obtain ⟨_, hpred⟩ := List.mem_filter.mp hr'mem
  rw [decide_eq_true_eq] at hpred
  apply hpred
  rw [hr'id]
  apply List.mem_map.mpr
  exact ⟨r, List.mem_filter.mpr ⟨hr, hj⟩, rfl⟩

theorem step2_names (v : Vocab) (db : DB) (t : TblName)
    (hnd : ((tableRows db t).map Prod.fst).Nodup) :
    ∀ r ∈ tableRows (step2_table v db t) t,
      ∃ x, isJunkStr x = false ∧
        r.2 = some (proposeName (validMapFor v t) (thresholdFor t) x) := by
  simp only [step2_table]
  apply updFold_good t
    (fun nm => ∃ x, isJunkStr x = false ∧
      nm = some (proposeName (validMapFor v t) (thresholdFor t) x))
  · rw [delFold_self]
    exact ((List.filter_sublist _).map Prod.fst).nodup hnd
  · intro u hu
    obtain ⟨r0, hr0, hf⟩ := List.mem_filterMap.mp hu
    cases hnm : r0.2 with
    | none => simp only [hnm] at hf; cases hf
    | some nm =>
        simp only [hnm] at hf
        by_cases hj : isJunkStr nm = true
        · rw [if_pos hj] at hf; cases hf
        · rw [if_neg hj] at hf
          rw [Bool.not_eq_true] at hj
          split_ifs at hf with hp
          · cases hf
            exact ⟨nm, hj, rfl⟩
  · intro r1 hr1
    rw [delFold_self] at hr1
    obtain ⟨hr1rows, hr1pred⟩ := List.mem_filter.mp hr1
    rw [decide_eq_true_eq] at hr1pred
    have hjf : isJunkName r1.2 = false := by
      cases hjn : isJunkName r1.2 with
      | false => rfl
      | true =>
          exfalso
          apply hr1pred
          apply List.mem_map.mpr
          exact ⟨r1, List.mem_filter.mpr ⟨hr1rows, hjn⟩, rfl⟩
    cases hnm : r1.2 with
    | none => simp only [isJunkName, hnm] at hjf; cases hjf
    | some nm =>
        simp only [isJunkName, hnm] at hjf
        have hjs : isJunkStr nm = false := hjf
        by_cases hp : proposeName (validMapFor v t) (thresholdFor t) nm = nm
        · left
          exact ⟨nm, hjs, by rw [hp]⟩
        · right
          refine ⟨(r1.1, proposeName (validMapFor v t) (thresholdFor t) nm),
            List.mem_filterMap.mpr ⟨r1, hr1rows, ?_⟩, rfl⟩
          simp only [hnm]
          rw [if_neg (by simp [hjs]), if_pos hp]

theorem title_not_in_set_of_lookup_none (v : Vocab) (t : TblName) (x : Str)
    (hl : lookupKey (validMapFor v t) (normalize_string x) = none) :
    to_title_case x ∉ validSetFor v t := by
  intro hin
  obtain ⟨n, hn, htn⟩ := List.mem_map.mp hin
  obtain ⟨d, hd⟩ := buildValidMap_complete (rawNamesFor v t) n hn
  rw [lookupKey_none_iff] at hl
  apply hl
  have heq : normalize_string x = normalize_string n := by
    rw [← normalize_title x, ← normalize_title n, htn]
  rw [heq]
  exact List.mem_map.mpr ⟨(normalize_string n, d), hd, rfl⟩

theorem proposeName_inv (v : Vocab) (t : TblName) (x : Str) :
    (∃ e ∈ validMapFor v t, proposeName (validMapFor v t) (thresholdFor t) x = e.2) ∨
      proposeName (validMapFor v t) (thresholdFor t) x ∉ validSetFor v t := by
  cases hl : lookupKey (validMapFor v t) (normalize_string x) with
  | some d =>
      left
      have hmem := lookupKey_some_mem (validMapFor v t) _ _ hl
      exact ⟨(normalize_string x, d), hmem,
        proposeName_exact (validMapFor v t) _ x d hl⟩
  | none =>
      cases hm : minDistOf (normalize_string x) (validMapFor v t) with
      | none =>
          right
          rw [proposeName_fallback _ _ _ hl (Or.inl hm)]
          exact title_not_in_set_of_lookup_none v t x hl
      | some m =>
          by_cases hthr : m ≤ thresholdFor t
          · left
            obtain ⟨e, he, _, hpe⟩ := proposeName_fuzzy _ _ x m hl hm hthr
            exact ⟨e, he, hpe⟩
          · right
            rw [proposeName_fallback _ _ _ hl (Or.inr ⟨m, hm, by omega⟩)]
            exact title_not_in_set_of_lookup_none v t x hl

theorem validMap_value_in_set (v : Vocab) (t : TblName) :
    ∀ e ∈ validMapFor v t, e.2 ∈ validSetFor v t := by
  intro e he
  obtain ⟨n, hn, _, h2⟩ := buildValidMap_mem (rawNamesFor v t) e he
  rw [h2]
  exact List.mem_map.mpr ⟨n, hn, rfl⟩

theorem step4_table_mem (d : DB) (t' t : TblName) :
    ∀ r ∈ tableRows (step4_table d t') t, r ∈ tableRows d t := by
  intro r hr
  by_cases h : t' = t
  · subst h
    rw [step4_table_self] at hr
    exact (List.mem_filter.mp hr).1
  · rw [step4_table_other _ _ _ h] at hr
    exact hr

/-- C3: after a successful cleaning run, every surviving entity name is a
member of that category's canonical display-name set (the Title-Cased
forms of the fetched or static vocabulary); any row failing this is
deleted by the validation phase. -/
theorem C3_validity : ∀ (v : Vocab) (db : DB) (t : TblName),
    ∀ r ∈ tableRows (clean_database v db) t,
      ∃ s, r.2 = some s ∧ s ∈ validSetFor v t := by
  intro v db t r hr
  simp only [clean_database, entity_tables, List.foldl_cons, List.foldl_nil] at hr
  have hr3 := step4_table_mem _ _ _ r (step4_table_mem _ _ _ r
    (step4_table_mem _ _ _ r (step4_table_mem _ _ _ r hr)))
  cases t with
  | pokemon =>
      rw [step3_tableRows_other v _ .trainers .pokemon (by decide),
        step3_tableRows_other v _ .abilities .pokemon (by decide),
        step3_tableRows_other v _ .types .pokemon (by decide)] at hr3
      obtain ⟨_, s, hs, hin⟩ := step3_mem v _ .pokemon r hr3
      exact ⟨s, hs, hin⟩
  | types =>
      rw [step3_tableRows_other v _ .trainers .types (by decide),
        step3_tableRows_other v _ .abilities .types (by decide)] at hr3
      obtain ⟨_, s, hs, hin⟩ := step3_mem v _ .types r hr3
      exact ⟨s, hs, hin⟩
  | abilities =>
      rw [step3_tableRows_other v _ .trainers .abilities (by decide)] at hr3
      obtain ⟨_, s, hs, hin⟩ := step3_mem v _ .abilities r hr3
      exact ⟨s, hs, hin⟩
  | trainers =>
      obtain ⟨_, s, hs, hin⟩ := step3_mem v _ .trainers r hr3
      exact ⟨s, hs, hin⟩
  | trainer_pokemon_abilities =>
      rw [step3_tableRows_other v _ .trainers .trainer_pokemon_abilities (by decide),
        step3_tableRows_other v _ .abilities .trainer_pokemon_abilities (by decide),
        step3_tableRows_other v _ .types .trainer_pokemon_abilities (by decide),
        step3_tableRows_other v _ .pokemon .trainer_pokemon_abilities (by decide)] at hr3
      rw [step2_tableRows_other v _ .trainers .trainer_pokemon_abilities (by decide),
        step2_tableRows_other v _ .abilities .trainer_pokemon_abilities (by decide),
        step2_tableRows_other v _ .types .trainer_pokemon_abilities (by decide),
        step2_tableRows_other v _ .pokemon .trainer_pokemon_abilities (by decide)] at hr3
      exact absurd hr3 (List.not_mem_nil r)

end PokeClean

namespace PokeClean

theorem fetch_pages_fail :
    ∀ (pages : List (Option (List Str))) (acc : List Str),
      none ∈ pages → fetch_pages pages acc = [] := by
  intro pages
  induction pages with
  | nil => intro acc h; cases h
  | cons p rest ih =>
      intro acc h
      cases p with
      | none => rfl
      | some ns =>
          have hmem : (none : Option (List Str)) ∈ rest := by
            rcases List.mem_cons.mp h with h' | h'
            · cases h'
            · exact h'
          exact ih _ hmem

/-- C10: the phase-1 junk test deletes a row exactly when its name is
NULL, empty, whitespace-only, or matches the non-word pattern; since
underscore is a word character, a name of only underscores is not junk
and survives phase 1. -/
theorem C10_junk_test :
    isJunkStr (strOf ("___")) = false ∧
    (∀ (v : Vocab) (db : DB) (t : TblName),
      ((tableRows db t).map Prod.fst).Nodup →
      ∀ r ∈ tableRows db t,
        (isJunkName r.2 = false →
          r.1 ∈ (tableRows (step2_table v db t) t).map Prod.fst) ∧
        (isJunkName r.2 = true →
          r.1 ∉ (tableRows (step2_table v db t) t).map Prod.fst)) ∧
    (1, some (strOf ("___"))) ∈ tableRows (step2_table V0 DBu .types) .types := by
  refine ⟨by decide, ?_, by decide⟩
  intro v db t hnd r hr
  exact ⟨step2_nonjunk_id_survives v db t hnd r hr, step2_junk_id_deleted v db t r hr⟩

theorem C10_junk_test_witness :
    isJunkName (some (strOf ("___"))) = false ∧
    (1 : Nat) ∈ (tableRows (step2_table V0 DBu .types) .types).map Prod.fst :=
  ⟨by decide, (C10_junk_test.2.1 V0 DBu .types (by decide)
    (1, some (strOf ("___"))) (by decide)).1 (by decide)⟩

/-- C6: a failed reference fetch yields an empty vocabulary, hence an
empty reference map and validity set for the category; phase 1 then
proposes only the Title-Cased current name (no vocabulary correction),
and phase 2 deletes every remaining row of the category. -/
theorem C6_fetch_failure :
    (∀ pages : List (Option (List Str)), none ∈ pages →
      fetch_all_pokeapi_resources pages = []) ∧
    (∀ (v : Vocab) (t : TblName), rawNamesFor v t = [] →
      validMapFor v t = [] ∧ validSetFor v t = []) ∧
    (∀ (thr : Nat) (nm : Str), proposeName [] thr nm = to_title_case nm) ∧
    (∀ (v : Vocab) (db : DB) (t : TblName), rawNamesFor v t = [] →
      tableRows (step3_table v db t) t = []) := by
  refine ⟨?_, ?_, ?_, ?_⟩
  · intro pages h
    exact fetch_pages_fail pages [] h
  · intro v t h
    constructor
    · simp [validMapFor, h, buildValidMap]
    · simp [validSetFor, h]
  · intro thr nm
    rfl
  · intro v db t h
    have hset : validSetFor v t = [] := by simp [validSetFor, h]
    simp only [step3_table]
    rw [delFold_self, List.filter_eq_nil_iff]
    intro r hr hcon
    rw [decide_eq_true_eq] at hcon
    apply hcon
    apply List.mem_map.mpr
    refine ⟨r, List.mem_filter.mpr ⟨hr, ?_⟩, rfl⟩
    cases hnm : r.2 with
    | none => rfl
    | some nm =>
        simp only [hnm]
        rw [decide_eq_true_eq, hset]
        simp

theorem C6_fetch_failure_witness :
    fetch_all_pokeapi_resources [some [strOf ("pikachu")], none] = [] ∧
    tableRows (step3_table
      { pokemonNames := [], typeNames := [], abilityNames := [] }
      DB0 .abilities) .abilities = [] :=
  ⟨C6_fetch_failure.1 _ (by decide),
    C6_fetch_failure.2.2.2 _ DB0 .abilities rfl⟩

/-- C5: the fuzzy matcher of phase 1 — exact key hit returns the stored
display form; otherwise, when the minimum Levenshtein distance over the
map is within the threshold (2 for every table), a minimum-distance
entry's display form is returned, else the Title-Cased raw name; in
particular a row named Pikuchu is renamed to Pikachu given a reference
set holding Pikachu. -/
theorem C5_matcher :
    (∀ t : TblName, thresholdFor t = 2) ∧
    (∀ (vmap : List (Str × Str)) (thr : Nat) (cur : Str),
      vmap ≠ [] → isJunkStr cur = false →
      (∀ disp, lookupKey vmap (normalize_string cur) = some disp →
        proposeName vmap thr cur = disp) ∧
      (∀ m, lookupKey vmap (normalize_string cur) = none →
        minDistOf (normalize_string cur) vmap = some m →
        (m ≤ thr → ∃ e ∈ vmap,
          levenshtein_distance (normalize_string cur) e.1 = m ∧
          (∀ e' ∈ vmap, m ≤ levenshtein_distance (normalize_string cur) e'.1) ∧
          proposeName vmap thr cur = e.2) ∧
        (thr < m → proposeName vmap thr cur = to_title_case cur))) ∧
    proposeName M0 2 (strOf ("Pikuchu")) = strOf ("Pikachu") := by
  refine ⟨fun t => rfl, ?_, by decide⟩
  intro vmap thr cur _ _
  refine ⟨fun disp h => proposeName_exact vmap thr cur disp h, ?_⟩
  intro m hl hm
  constructor
  · intro hthr
    obtain ⟨e, he, hde, hpe⟩ := proposeName_fuzzy vmap thr cur m hl hm hthr
    refine ⟨e, he, hde, ?_, hpe⟩
    intro e' he'
    exact (minDistOf_le (normalize_string cur) vmap none m hm).2 e' he'
  · intro hthr
    exact proposeName_fallback vmap thr cur hl (Or.inr ⟨m, hm, hthr⟩)

theorem C5_matcher_witness :
    ∃ e ∈ M0, levenshtein_distance (normalize_string (strOf ("Pikuchu"))) e.1 = 1 ∧
      (∀ e' ∈ M0, 1 ≤ levenshtein_distance (normalize_string (strOf ("Pikuchu"))) e'.1) ∧
      proposeName M0 2 (strOf ("Pikuchu")) = e.2 :=
  ((C5_matcher.2.1 M0 2 (strOf ("Pikuchu")) (by decide) (by decide)).2 1
    (by decide) (by decide)).1 (by decide)

/-- C4 counterexample: at a concrete input where a storage error strikes,
the run is rolled back and not committed, but the function returns
normally — the sqlite3 error is caught and logged, never re-raised, so it
is not propagated to the caller as the claim states. -/
theorem C4_counterexample :
    (clean_database_guarded V0 DB0 (some 0)).db = DB0 ∧
    (clean_database_guarded V0 DB0 (some 0)).committed = false ∧
    ¬ (clean_database_guarded V0 DB0 (some 0)).raised = true := by
  refine ⟨rfl, rfl, ?_⟩
  intro h
  cases h

/-- C4 (amended): a storage error at any phase rolls the whole run back —
the dataset is left unchanged and nothing is committed — and the
transaction is committed only when every phase of every table succeeded;
however the error is caught inside `clean_database` and is not propagated
to the caller. -/
theorem C4_error_handling :
    ∀ (v : Vocab) (db : DB) (k : Nat),
      clean_database_guarded v db (some k) =
        { db := db, committed := false, raised := false } ∧
      clean_database_guarded v db none =
        { db := clean_database v db, committed := true, raised := false } :=
  fun _ _ _ => ⟨rfl, rfl⟩

theorem C3_validity_witness :
    (1, some (strOf ("Pikachu"))) ∈ tableRows (clean_database V0 DB0) .pokemon ∧
    ∃ s, (some (strOf ("Pikachu")) : Option Str) = some s ∧ s ∈ validSetFor V0 .pokemon :=
  ⟨by decide, C3_validity V0 DB0 .pokemon (1, some (strOf ("Pikachu"))) (by decide)⟩

end PokeClean

namespace PokeClean

theorem refOk_mono (ids ids' : List Nat) (h : ∀ x ∈ ids, x ∈ ids') :
    ∀ v, refOk ids v → refOk ids' v := by
  intro v
  cases v with
  | none => intro _; trivial
  | some x => exact h x

theorem refOk_nullify (ids ids' : List Nat) (i : Nat)
    (h : ∀ x ∈ ids, x ≠ i → x ∈ ids') :
    ∀ v, refOk ids v → refOk ids' (nullifyOne i v) := by
  intro v hv
  cases v with
  | none => trivial
  | some x =>
      unfold nullifyOne
      by_cases hx : some x = some i
      · rw [if_pos hx]; trivial
      · rw [if_neg hx]
        exact h x hv (fun he => hx (by rw [he]))

theorem refOk_remap (ids ids' : List Nat) (c : Nat) (dups : List Nat)
    (hc : c ∈ ids') (h : ∀ x ∈ ids, x ∉ dups → x ∈ ids') :
    ∀ v, refOk ids v → refOk ids' (remapOne c dups v) := by
  intro v hv
  cases v with
  | none => trivial
  | some x =>
      show refOk ids' (if x ∈ dups then some c else some x)
      by_cases hx : x ∈ dups
      · rw [if_pos hx]; exact hc
      · rw [if_neg hx]; exact h x hv hx

theorem erow_ids_filter_ne (l : List ERow) (i x : Nat)
    (hx : x ∈ l.map ERow.id) (hne : x ≠ i) :
    x ∈ (l.filter (fun r => decide (r.id ≠ i))).map ERow.id := by
  obtain ⟨r, hr, hre⟩ := List.mem_map.mp hx
  refine List.mem_map.mpr ⟨r, List.mem_filter.mpr ⟨hr, ?_⟩, hre⟩
  rw [decide_eq_true_eq, hre]
  exact hne

theorem prow_ids_filter_ne (l : List PRow) (i x : Nat)
    (hx : x ∈ l.map PRow.id) (hne : x ≠ i) :
    x ∈ (l.filter (fun r => decide (r.id ≠ i))).map PRow.id := by
  obtain ⟨r, hr, hre⟩ := List.mem_map.mp hx
  refine List.mem_map.mpr ⟨r, List.mem_filter.mpr ⟨hr, ?_⟩, hre⟩
  rw [decide_eq_true_eq, hre]
  exact hne

theorem erow_ids_filter_notin (l : List ERow) (dups : List Nat) (x : Nat)
    (hx : x ∈ l.map ERow.id) (hnd : x ∉ dups) :
    x ∈ (l.filter (fun r => decide (r.id ∉ dups))).map ERow.id := by
  obtain ⟨r, hr, hre⟩ := List.mem_map.mp hx
  refine List.mem_map.mpr ⟨r, List.mem_filter.mpr ⟨hr, ?_⟩, hre⟩
  rw [decide_eq_true_eq, hre]
  exact hnd

theorem prow_ids_filter_notin (l : List PRow) (dups : List Nat) (x : Nat)
    (hx : x ∈ l.map PRow.id) (hnd : x ∉ dups) :
    x ∈ (l.filter (fun r => decide (r.id ∉ dups))).map PRow.id := by
  obtain ⟨r, hr, hre⟩ := List.mem_map.mp hx
  refine List.mem_map.mpr ⟨r, List.mem_filter.mpr ⟨hr, ?_⟩, hre⟩
  rw [decide_eq_true_eq, hre]
  exact hnd

theorem map_prow_id (l : List PRow) (u : PRow → PRow) (hu : ∀ r, (u r).id = r.id) :
    (l.map u).map PRow.id = l.map PRow.id := by
  rw [List.map_map]
  exact List.map_congr_left (fun r _ => hu r)

theorem map_erow_id (l : List ERow) (u : ERow → ERow) (hu : ∀ r, (u r).id = r.id) :
    (l.map u).map ERow.id = l.map ERow.id := by
  rw [List.map_map]
  exact List.map_congr_left (fun r _ => hu r)

theorem idsOf_pokemon (db : DB) : idsOf db .pokemon = db.pokemon.map PRow.id := by
  simp only [idsOf, tableRows, List.map_map]
  exact List.map_congr_left (fun r _ => rfl)

theorem idsOf_types (db : DB) : idsOf db .types = db.types.map ERow.id := by
  simp only [idsOf, tableRows, List.map_map]
  exact List.map_congr_left (fun r _ => rfl)

theorem idsOf_abilities (db : DB) : idsOf db .abilities = db.abilities.map ERow.id := by
  simp only [idsOf, tableRows, List.map_map]
  exact List.map_congr_left (fun r _ => rfl)

theorem idsOf_trainers (db : DB) : idsOf db .trainers = db.trainers.map ERow.id := by
  simp only [idsOf, tableRows, List.map_map]
  exact List.map_congr_left (fun r _ => rfl)

theorem minIdOf_foldl_mem : ∀ (xs : List Nat) (a : Nat), xs.foldl Nat.min a ∈ a :: xs := by
  intro xs
  induction xs with
  | nil => intro a; exact List.mem_singleton.mpr rfl
  | cons y ys ih =>
      intro a
      rw [List.foldl_cons]
      rcases List.mem_cons.mp (ih (Nat.min a y)) with h | h
      · rw [h]
        have hd : Nat.min a y = if a ≤ y then a else y := rfl
        rw [hd]
        by_cases h' : a ≤ y
        · rw [if_pos h']; exact List.mem_cons_self _ _
        · rw [if_neg h']; exact List.mem_cons_of_mem _ (List.mem_cons_self _ _)
      · exact List.mem_cons_of_mem _ (List.mem_cons_of_mem _ h)

theorem minIdOf_mem (l : List Nat) (h : l ≠ []) : minIdOf l ∈ l := by
  cases l with
  | nil => exact absurd rfl h
  | cons x xs => exact minIdOf_foldl_mem xs x

theorem minIdOf_foldl_le : ∀ (xs : List Nat) (a : Nat),
    xs.foldl Nat.min a ≤ a ∧ ∀ x ∈ xs, xs.foldl Nat.min a ≤ x := by
  intro xs
  induction xs with
  | nil => intro a; exact ⟨le_refl a, by simp⟩
  | cons y ys ih =>
      intro a
      rw [List.foldl_cons]
      obtain ⟨h1, h2⟩ := ih (Nat.min a y)
      refine ⟨h1.trans (Nat.min_le_left a y), ?_⟩
      intro x hx
      rcases List.mem_cons.mp hx with h' | h'
      · rw [h']; exact h1.trans (Nat.min_le_right a y)
      · exact h2 x h'

theorem minIdOf_le (l : List Nat) : ∀ x ∈ l, minIdOf l ≤ x := by
  cases l with
  | nil => simp
  | cons a xs =>
      intro x hx
      rcases List.mem_cons.mp hx with h | h
      · rw [h]; exact (minIdOf_foldl_le xs a).1
      · exact (minIdOf_foldl_le xs a).2 x h

theorem uniqFirst_go_nodup :
    ∀ (l acc : List (Option Str)), acc.Nodup →
      (l.foldl (fun acc k => if k ∈ acc then acc else acc ++ [k]) acc).Nodup := by
  intro l
  induction l with
  | nil => intro acc h; exact h
  | cons k l ih =>
      intro acc h
      rw [List.foldl_cons]
      apply ih
      by_cases hk : k ∈ acc
      · rw [if_pos hk]; exact h
      · rw [if_neg hk]
        rw [List.nodup_append]
        exact ⟨h, by simp, fun a ha hb => hk (by
          rw [List.mem_singleton] at hb
          rw [← hb]
          exact ha)⟩

theorem uniqFirst_nodup (l : List (Option Str)) : (uniqFirst l).Nodup :=
  uniqFirst_go_nodup l [] List.nodup_nil

theorem uniqFirst_go_mem :
    ∀ (l acc : List (Option Str)) (k : Option Str),
      k ∈ l.foldl (fun acc k => if k ∈ acc then acc else acc ++ [k]) acc ↔
        k ∈ acc ∨ k ∈ l := by
  intro l
  induction l with
  | nil => intro acc k; simp
  | cons x l ih =>
      intro acc k
      rw [List.foldl_cons, ih]
      by_cases hx : x ∈ acc
      · rw [if_pos hx]
        constructor
        · rintro (h | h)
          · exact Or.inl h
          · exact Or.inr (List.mem_cons_of_mem _ h)
        · rintro (h | h)
          · exact Or.inl h
          · rcases List.mem_cons.mp h with h' | h'
            · exact Or.inl (h' ▸ hx)
            · exact Or.inr h'
      · rw [if_neg hx]
        constructor
        · rintro (h | h)
          · rcases List.mem_append.mp h with h' | h'
            · exact Or.inl h'
            · rw [List.mem_singleton] at h'
              exact Or.inr (h' ▸ List.mem_cons_self _ _)
          · exact Or.inr (List.mem_cons_of_mem _ h)
        · rintro (h | h)
          · exact Or.inl (List.mem_append.mpr (Or.inl h))
          · rcases List.mem_cons.mp h with h' | h'
            · exact Or.inl (List.mem_append.mpr (Or.inr (by simp [h'])))
            · exact Or.inr h'

theorem uniqFirst_mem (l : List (Option Str)) (k : Option Str) :
    k ∈ uniqFirst l ↔ k ∈ l := by
  rw [uniqFirst, uniqFirst_go_mem]
  simp

theorem pairwise_filterMap {α β : Type} (f : α → Option β) (R : β → β → Prop)
    (S : α → α → Prop)
    (h : ∀ a a', S a a' → ∀ b b', f a = some b → f a' = some b' → R b b') :
    ∀ l : List α, l.Pairwise S → (l.filterMap f).Pairwise R := by
  intro l
  induction l with
  | nil => intro _; simp
  | cons a l ih =>
      intro hp
      obtain ⟨ha, hl⟩ := List.pairwise_cons.mp hp
      cases hf : f a with
      | none =>
          rw [List.filterMap_cons_none hf]
          exact ih hl
      | some b =>
          rw [List.filterMap_cons_some hf]
          rw [List.pairwise_cons]
          refine ⟨?_, ih hl⟩
          intro b' hb'
          obtain ⟨a', ha', hf'⟩ := List.mem_filterMap.mp hb'
          exact h a a' (ha a' ha') b b' hf hf'

theorem dupGroups_spec (db : DB) (t : TblName) :
    ∀ g ∈ dupGroups db t, ∃ k,
      g.2 = ((tableRows db t).filter (fun r => decide (keyOfRow r = k))).map Prod.fst ∧
      2 ≤ g.2.length ∧ g.1 = minIdOf g.2 := by
  intro g hg
  simp only [dupGroups] at hg
  obtain ⟨k, _, hf⟩ := List.mem_filterMap.mp hg
  split_ifs at hf with hlen
  · cases hf
    exact ⟨k, rfl, hlen, rfl⟩

end PokeClean

namespace PokeClean

theorem refOk_map_prow (l : List PRow) (u : PRow → PRow) (hu : ∀ r, (u r).id = r.id)
    (v : Option Nat) (h : refOk (l.map PRow.id) v) : refOk ((l.map u).map PRow.id) v := by
  rw [map_prow_id l u hu]
  exact h

theorem refInt_guardedDelete (db : DB) (i : Nat) (t : TblName) (h : RefIntegrity db) :
    RefIntegrity (deleteById (nullify_fks_referencing_id db i t) t i) := by
  obtain ⟨hp, ht⟩ := h
  have hnul : ∀ (d : DB) (t0 : TblName),
      nullify_fks_referencing_id d i t0 = fkFold d t0 (nullifyOne i) := fun _ _ => rfl
  cases t with
  | types =>
      rw [hnul, fkFold_types_eq]
      constructor
      · intro r' hr'
        obtain ⟨r, hr, hre⟩ := List.mem_map.mp hr'
        subst hre
        exact ⟨refOk_nullify _ _ i
            (fun x hx hne => erow_ids_filter_ne db.types i x hx hne) _ ((hp r hr).1),
          refOk_nullify _ _ i
            (fun x hx hne => erow_ids_filter_ne db.types i x hx hne) _ ((hp r hr).2)⟩
      · intro r' hr'
        obtain ⟨h1, h2, h3⟩ := ht r' hr'
        exact ⟨refOk_map_prow db.pokemon
          (fun r => { r with type1_id := nullifyOne i r.type1_id,
                             type2_id := nullifyOne i r.type2_id })
          (fun r => rfl) _ h1, h2, h3⟩
  | pokemon =>
      rw [hnul, fkFold_pokemon_eq]
      constructor
      · intro r' hr'
        exact hp r' (List.mem_filter.mp hr').1
      · intro r' hr'
        obtain ⟨r, hr, hre⟩ := List.mem_map.mp hr'
        subst hre
        obtain ⟨h1, h2, h3⟩ := ht r hr
        refine ⟨?_, h2, h3⟩
        exact refOk_nullify _ _ i
          (fun x hx hne => prow_ids_filter_ne db.pokemon i x hx hne) _ h1
  | trainers =>
      rw [hnul, fkFold_trainers_eq]
      constructor
      · intro r' hr'
        exact hp r' hr'
      · intro r' hr'
        obtain ⟨r, hr, hre⟩ := List.mem_map.mp hr'
        subst hre
        obtain ⟨h1, h2, h3⟩ := ht r hr
        exact ⟨h1, refOk_nullify _ _ i
          (fun x hx hne => erow_ids_filter_ne db.trainers i x hx hne) _ h2, h3⟩
  | abilities =>
      rw [hnul, fkFold_abilities_eq]
      constructor
      · intro r' hr'
        exact hp r' hr'
      · intro r' hr'
        obtain ⟨r, hr, hre⟩ := List.mem_map.mp hr'
        subst hre
        obtain ⟨h1, h2, h3⟩ := ht r hr
        exact ⟨h1, h2, refOk_nullify _ _ i
          (fun x hx hne => erow_ids_filter_ne db.abilities i x hx hne) _ h3⟩
  | trainer_pokemon_abilities =>
      rw [hnul, fkFold_tpa_eq]
      exact ⟨hp, ht⟩

theorem refInt_remapRemove (db : DB) (t : TblName) (c : Nat) (dups : List Nat)
    (h : RefIntegrity db) (hc : c ∈ idsOf db t) (hcd : c ∉ dups) :
    RefIntegrity (removeIds (remap_fks_referencing db c dups t) t dups) := by
  obtain ⟨hp, ht⟩ := h
  have hrem : ∀ (d : DB) (t0 : TblName),
      remap_fks_referencing d c dups t0 = fkFold d t0 (remapOne c dups) := fun _ _ => rfl
  cases t with
  | types =>
      rw [hrem, fkFold_types_eq]
      rw [idsOf_types] at hc
      have hcin : c ∈ (db.types.filter (fun r => decide (r.id ∉ dups))).map ERow.id :=
        erow_ids_filter_notin db.types dups c hc hcd
      constructor
      · intro r' hr'
        obtain ⟨r, hr, hre⟩ := List.mem_map.mp hr'
        subst hre
        exact ⟨refOk_remap _ _ c dups hcin
            (fun x hx hxd => erow_ids_filter_notin db.types dups x hx hxd) _ ((hp r hr).1),
          refOk_remap _ _ c dups hcin
            (fun x hx hxd => erow_ids_filter_notin db.types dups x hx hxd) _ ((hp r hr).2)⟩
      · intro r' hr'
        obtain ⟨h1, h2, h3⟩ := ht r' hr'
        exact ⟨refOk_map_prow db.pokemon
          (fun r => { r with type1_id := remapOne c dups r.type1_id,
                             type2_id := remapOne c dups r.type2_id })
          (fun r => rfl) _ h1, h2, h3⟩
  | pokemon =>
      rw [hrem, fkFold_pokemon_eq]
      rw [idsOf_pokemon] at hc
      have hcin : c ∈ (db.pokemon.filter (fun r => decide (r.id ∉ dups))).map PRow.id :=
        prow_ids_filter_notin db.pokemon dups c hc hcd
      constructor
      · intro r' hr'
        exact hp r' (List.mem_filter.mp hr').1
      · intro r' hr'
        obtain ⟨r, hr, hre⟩ := List.mem_map.mp hr'
        subst hre
        obtain ⟨h1, h2, h3⟩ := ht r hr
        refine ⟨?_, h2, h3⟩
        exact refOk_remap _ _ c dups hcin
          (fun x hx hxd => prow_ids_filter_notin db.pokemon dups x hx hxd) _ h1
  | trainers =>
      rw [hrem, fkFold_trainers_eq]
      rw [idsOf_trainers] at hc
      have hcin : c ∈ (db.trainers.filter (fun r => decide (r.id ∉ dups))).map ERow.id :=
        erow_ids_filter_notin db.trainers dups c hc hcd
      constructor
      · intro r' hr'
        exact hp r' hr'
      · intro r' hr'
        obtain ⟨r, hr, hre⟩ := List.mem_map.mp hr'
        subst hre
        obtain ⟨h1, h2, h3⟩ := ht r hr
        exact ⟨h1, refOk_remap _ _ c dups hcin
          (fun x hx hxd => erow_ids_filter_notin db.trainers dups x hx hxd) _ h2, h3⟩
  | abilities =>
      rw [hrem, fkFold_abilities_eq]
      rw [idsOf_abilities] at hc
      have hcin : c ∈ (db.abilities.filter (fun r => decide (r.id ∉ dups))).map ERow.id :=
        erow_ids_filter_notin db.abilities dups c hc hcd
      constructor
      · intro r' hr'
        exact hp r' hr'
      · intro r' hr'
        obtain ⟨r, hr, hre⟩ := List.mem_map.mp hr'
        subst hre
        obtain ⟨h1, h2, h3⟩ := ht r hr
        exact ⟨h1, h2, refOk_remap _ _ c dups hcin
          (fun x hx hxd => erow_ids_filter_notin db.abilities dups x hx hxd) _ h3⟩
  | trainer_pokemon_abilities =>
      rw [hrem, fkFold_tpa_eq]
      exact ⟨hp, ht⟩

theorem refInt_step4_group (db : DB) (t : TblName) (c : Nat) (ids : List Nat)
    (h : RefIntegrity db) (hc : c ∈ idsOf db t) :
    RefIntegrity (step4_group db t c ids) := by
  simp only [step4_group]
  split_ifs with hd
  · exact h
  · apply refInt_remapRemove db t c _ h hc
    intro hmem
    have hne := (List.mem_filter.mp hmem).2
    rw [decide_eq_true_eq] at hne
    exact hne rfl

theorem refInt_step4_fold (t : TblName) :
    ∀ (gs : List (Nat × List Nat)) (db : DB),
      RefIntegrity db →
      (∀ g ∈ gs, g.1 ∈ idsOf db t) →
      (∀ g ∈ gs, g.1 ∈ g.2) →
      gs.Pairwise (fun g g' => ∀ x ∈ g.2, x ∉ g'.2) →
      RefIntegrity (gs.foldl (fun d g => step4_group d t g.1 g.2) db) := by
  intro gs
  induction gs with
  | nil => intro db h _ _ _; exact h
  | cons g gs ih =>
      intro db h hmem hself hdisj
      rw [List.foldl_cons]
      obtain ⟨hdh, hdt⟩ := List.pairwise_cons.mp hdisj
      apply ih
      · exact refInt_step4_group db t g.1 g.2 h (hmem g (List.mem_cons_self _ _))
      · intro g' hg'
        have h1 : g'.1 ∈ idsOf db t := hmem g' (List.mem_cons_of_mem _ hg')
        have h2 : g'.1 ∉ g.2.filter (fun x => decide (x ≠ g.1)) := by
          intro hin
          have hin2 : g'.1 ∈ g.2 := (List.mem_filter.mp hin).1
          exact (hdh g' hg' g'.1 hin2) (hself g' (List.mem_cons_of_mem _ hg'))
        unfold idsOf
        rw [step4_group_tableRows_self]
        unfold idsOf at h1
        obtain ⟨r, hr, hre⟩ := List.mem_map.mp h1
        refine List.mem_map.mpr ⟨r, List.mem_filter.mpr ⟨hr, ?_⟩, hre⟩
        rw [decide_eq_true_eq, hre]
        exact h2
      · intro g' hg'
        exact hself g' (List.mem_cons_of_mem _ hg')
      · exact hdt

theorem dupGroups_props (db : DB) (t : TblName)
    (hnd : ((tableRows db t).map Prod.fst).Nodup) :
    (∀ g ∈ dupGroups db t, g.1 ∈ idsOf db t) ∧
    (∀ g ∈ dupGroups db t, g.1 ∈ g.2) ∧
    (dupGroups db t).Pairwise (fun g g' => ∀ x ∈ g.2, x ∉ g'.2) := by
  have hself : ∀ g ∈ dupGroups db t, g.1 ∈ g.2 := by
    intro g hg
    obtain ⟨k, hids, hlen, hmin⟩ := dupGroups_spec db t g hg
    rw [hmin]
    apply minIdOf_mem
    intro hnil
    rw [hnil] at hlen
    simp at hlen
  refine ⟨?_, hself, ?_⟩
  · intro g hg
    obtain ⟨k, hids, hlen, hmin⟩ := dupGroups_spec db t g hg
    have hm := hself g hg
    rw [hids] at hm
    obtain ⟨r, hr, hre⟩ := List.mem_map.mp hm
    exact List.mem_map.mpr ⟨r, (List.mem_filter.mp hr).1, hre⟩
  · simp only [dupGroups]
    apply pairwise_filterMap _ _ (fun k k' : Option Str => k ≠ k')
    · intro k k' hkk g g' hf hf'
      split_ifs at hf with hl
      cases hf
      split_ifs at hf' with hl'
      cases hf'
      intro x hx hx'
      obtain ⟨r, hr, hre⟩ := List.mem_map.mp hx
      obtain ⟨r', hr', hre'⟩ := List.mem_map.mp hx'
      obtain ⟨hr1, hk1⟩ := List.mem_filter.mp hr
      obtain ⟨hr1', hk1'⟩ := List.mem_filter.mp hr'
      have heqr : r = r' := List.inj_on_of_nodup_map hnd hr1 hr1' (by rw [hre, hre'])
      apply hkk
      rw [decide_eq_true_eq] at hk1 hk1'
      rw [← hk1, ← hk1', heqr]
    · exact uniqFirst_nodup _

end PokeClean

namespace PokeClean

theorem nodup_ids_filter_prow (l : List PRow) (p : PRow → Bool)
    (h : (l.map PRow.id).Nodup) : ((l.filter p).map PRow.id).Nodup :=
  ((List.filter_sublist l).map PRow.id).nodup h

theorem nodup_ids_filter_erow (l : List ERow) (p : ERow → Bool)
    (h : (l.map ERow.id).Nodup) : ((l.filter p).map ERow.id).Nodup :=
  ((List.filter_sublist l).map ERow.id).nodup h

theorem nodup_map_prow_id (l : List PRow) (u : PRow → PRow) (hu : ∀ r, (u r).id = r.id)
    (h : (l.map PRow.id).Nodup) : ((l.map u).map PRow.id).Nodup := by
  rw [map_prow_id l u hu]
  exact h

theorem nodup_map_erow_id (l : List ERow) (u : ERow → ERow) (hu : ∀ r, (u r).id = r.id)
    (h : (l.map ERow.id).Nodup) : ((l.map u).map ERow.id).Nodup := by
  rw [map_erow_id l u hu]
  exact h

theorem refOk_map_erow (l : List ERow) (u : ERow → ERow) (hu : ∀ r, (u r).id = r.id)
    (v : Option Nat) (h : refOk (l.map ERow.id) v) : refOk ((l.map u).map ERow.id) v := by
  rw [map_erow_id l u hu]
  exact h

theorem uniqueIds_fkFold (db : DB) (t0 : TblName) (f : Option Nat → Option Nat)
    (h : UniqueIds db) : UniqueIds (fkFold db t0 f) := by
  obtain ⟨h1, h2, h3, h4⟩ := h
  cases t0 with
  | types =>
      rw [fkFold_types_eq]
      exact ⟨nodup_map_prow_id db.pokemon
        (fun r => { r with type1_id := f r.type1_id, type2_id := f r.type2_id })
        (fun r => rfl) h1, h2, h3, h4⟩
  | pokemon => rw [fkFold_pokemon_eq]; exact ⟨h1, h2, h3, h4⟩
  | trainers => rw [fkFold_trainers_eq]; exact ⟨h1, h2, h3, h4⟩
  | abilities => rw [fkFold_abilities_eq]; exact ⟨h1, h2, h3, h4⟩
  | trainer_pokemon_abilities => rw [fkFold_tpa_eq]; exact ⟨h1, h2, h3, h4⟩

theorem uniqueIds_deleteById (db : DB) (t : TblName) (i : Nat) (h : UniqueIds db) :
    UniqueIds (deleteById db t i) := by
  obtain ⟨h1, h2, h3, h4⟩ := h
  cases t with
  | pokemon => exact ⟨nodup_ids_filter_prow _ _ h1, h2, h3, h4⟩
  | types => exact ⟨h1, nodup_ids_filter_erow _ _ h2, h3, h4⟩
  | abilities => exact ⟨h1, h2, nodup_ids_filter_erow _ _ h3, h4⟩
  | trainers => exact ⟨h1, h2, h3, nodup_ids_filter_erow _ _ h4⟩
  | trainer_pokemon_abilities => exact ⟨h1, h2, h3, h4⟩

theorem uniqueIds_removeIds (db : DB) (t : TblName) (dups : List Nat) (h : UniqueIds db) :
    UniqueIds (removeIds db t dups) := by
  obtain ⟨h1, h2, h3, h4⟩ := h
  cases t with
  | pokemon => exact ⟨nodup_ids_filter_prow _ _ h1, h2, h3, h4⟩
  | types => exact ⟨h1, nodup_ids_filter_erow _ _ h2, h3, h4⟩
  | abilities => exact ⟨h1, h2, nodup_ids_filter_erow _ _ h3, h4⟩
  | trainers => exact ⟨h1, h2, h3, nodup_ids_filter_erow _ _ h4⟩
  | trainer_pokemon_abilities => exact ⟨h1, h2, h3, h4⟩

theorem uniqueIds_setName (db : DB) (t : TblName) (i : Nat) (nm : Option Str)
    (h : UniqueIds db) : UniqueIds (setName db t i nm) := by
  obtain ⟨h1, h2, h3, h4⟩ := h
  cases t with
  | pokemon =>
      exact ⟨nodup_map_prow_id _ _
        (fun r => by by_cases hh : r.id = i <;> simp [hh]) h1, h2, h3, h4⟩
  | types =>
      exact ⟨h1, nodup_map_erow_id _ _
        (fun r => by by_cases hh : r.id = i <;> simp [hh]) h2, h3, h4⟩
  | abilities =>
      exact ⟨h1, h2, nodup_map_erow_id _ _
        (fun r => by by_cases hh : r.id = i <;> simp [hh]) h3, h4⟩
  | trainers =>
      exact ⟨h1, h2, h3, nodup_map_erow_id _ _
        (fun r => by by_cases hh : r.id = i <;> simp [hh]) h4⟩
  | trainer_pokemon_abilities => exact ⟨h1, h2, h3, h4⟩

theorem uniqueIds_condUpdateName (db : DB) (t : TblName) (i : Nat) (nm : Str)
    (h : UniqueIds db) : UniqueIds (condUpdateName db t i nm) := by
  cases hf : (tableRows db t).find? (fun r => decide (r.1 = i)) with
  | none => simp only [condUpdateName, hf]; exact h
  | some r0 =>
      simp only [condUpdateName, hf]
      split_ifs with h0
      · exact uniqueIds_setName db t i (some nm) h
      · exact h

theorem refInt_setName (db : DB) (t : TblName) (i : Nat) (nm : Option Str)
    (h : RefIntegrity db) : RefIntegrity (setName db t i nm) := by
  obtain ⟨hp, ht⟩ := h
  cases t with
  | pokemon =>
      constructor
      · intro r' hr'
        obtain ⟨r, hr, hre⟩ := List.mem_map.mp hr'
        subst hre
        have e1 : ((if r.id = i then { r with name := nm } else r) : PRow).type1_id =
            r.type1_id := by by_cases hh : r.id = i <;> simp [hh]
        have e2 : ((if r.id = i then { r with name := nm } else r) : PRow).type2_id =
            r.type2_id := by by_cases hh : r.id = i <;> simp [hh]
        rw [e1, e2]
        exact hp r hr
      · intro r' hr'
        obtain ⟨h1, h2, h3⟩ := ht r' hr'
        exact ⟨refOk_map_prow db.pokemon _
          (fun r => by by_cases hh : r.id = i <;> simp [hh]) _ h1, h2, h3⟩
  | types =>
      constructor
      · intro r' hr'
        obtain ⟨hh1, hh2⟩ := hp r' hr'
        exact ⟨refOk_map_erow db.types _
            (fun r => by by_cases hh : r.id = i <;> simp [hh]) _ hh1,
          refOk_map_erow db.types _
            (fun r => by by_cases hh : r.id = i <;> simp [hh]) _ hh2⟩
      · intro r' hr'
        exact ht r' hr'
  | abilities =>
      constructor
      · intro r' hr'
        exact hp r' hr'
      · intro r' hr'
        obtain ⟨h1, h2, h3⟩ := ht r' hr'
        exact ⟨h1, h2, refOk_map_erow db.abilities _
          (fun r => by by_cases hh : r.id = i <;> simp [hh]) _ h3⟩
  | trainers =>
      constructor
      · intro r' hr'
        exact hp r' hr'
      · intro r' hr'
        obtain ⟨h1, h2, h3⟩ := ht r' hr'
        exact ⟨h1, refOk_map_erow db.trainers _
          (fun r => by by_cases hh : r.id = i <;> simp [hh]) _ h2, h3⟩
  | trainer_pokemon_abilities => exact ⟨hp, ht⟩

theorem refInt_condUpdateName (db : DB) (t : TblName) (i : Nat) (nm : Str)
    (h : RefIntegrity db) : RefIntegrity (condUpdateName db t i nm) := by
  cases hf : (tableRows db t).find? (fun r => decide (r.1 = i)) with
  | none => simp only [condUpdateName, hf]; exact h
  | some r0 =>
      simp only [condUpdateName, hf]
      split_ifs with h0
      · exact refInt_setName db t i (some nm) h
      · exact h

theorem inv_delFold (t : TblName) (P : DB → Prop)
    (hstep : ∀ d i, P d → P (deleteById (nullify_fks_referencing_id d i t) t i)) :
    ∀ (L : List (Nat × Option Str)) (db : DB), P db →
      P (L.foldl (fun d r => deleteById (nullify_fks_referencing_id d r.1 t) t r.1) db) := by
  intro L
  induction L with
  | nil => intro db h; exact h
  | cons x L ih =>
      intro db h
      rw [List.foldl_cons]
      exact ih _ (hstep db x.1 h)

theorem inv_updFold (t : TblName) (P : DB → Prop)
    (hstep : ∀ d i nm, P d → P (condUpdateName d t i nm)) :
    ∀ (U : List (Nat × Str)) (db : DB), P db →
      P (U.foldl (fun d u => condUpdateName d t u.1 u.2) db) := by
  intro U
  induction U with
  | nil => intro db h; exact h
  | cons u U ih =>
      intro db h
      rw [List.foldl_cons]
      exact ih _ (hstep db u.1 u.2 h)

theorem refInt_uniq_step2 (v : Vocab) (db : DB) (t : TblName)
    (h : RefIntegrity db ∧ UniqueIds db) :
    RefIntegrity (step2_table v db t) ∧ UniqueIds (step2_table v db t) := by
  simp only [step2_table]
  apply inv_updFold t (fun d => RefIntegrity d ∧ UniqueIds d)
  · intro d i nm hd
    exact ⟨refInt_condUpdateName d t i nm hd.1, uniqueIds_condUpdateName d t i nm hd.2⟩
  · apply inv_delFold t (fun d => RefIntegrity d ∧ UniqueIds d)
    · intro d i hd
      exact ⟨refInt_guardedDelete d i t hd.1,
        uniqueIds_deleteById _ t i (uniqueIds_fkFold d t _ hd.2)⟩
    · exact h

theorem refInt_uniq_step3 (v : Vocab) (db : DB) (t : TblName)
    (h : RefIntegrity db ∧ UniqueIds db) :
    RefIntegrity (step3_table v db t) ∧ UniqueIds (step3_table v db t) := by
  simp only [step3_table]
  apply inv_delFold t (fun d => RefIntegrity d ∧ UniqueIds d)
  · intro d i hd
    exact ⟨refInt_guardedDelete d i t hd.1,
      uniqueIds_deleteById _ t i (uniqueIds_fkFold d t _ hd.2)⟩
  · exact h

theorem uniqueIds_step4_group (db : DB) (t : TblName) (c : Nat) (ids : List Nat)
    (h : UniqueIds db) : UniqueIds (step4_group db t c ids) := by
  simp only [step4_group]
  split_ifs with hd
  · exact h
  · exact uniqueIds_removeIds _ t _ (uniqueIds_fkFold db t _ h)

theorem refInt_uniq_step4 (db : DB) (t : TblName)
    (h : RefIntegrity db ∧ UniqueIds db) :
    RefIntegrity (step4_table db t) ∧ UniqueIds (step4_table db t) := by
  obtain ⟨hr, hu⟩ := h
  constructor
  · unfold step4_table
    obtain ⟨hmem, hself, hdisj⟩ := dupGroups_props db t (uniqueIds_tableRows db hu t)
    exact refInt_step4_fold t (dupGroups db t) db hr hmem hself hdisj
  · unfold step4_table
    clear hr
    generalize dupGroups db t = gs
    induction gs generalizing db with
    | nil => exact hu
    | cons g gs ih =>
        rw [List.foldl_cons]
        exact ih _ (uniqueIds_step4_group db t g.1 g.2 hu)

theorem inv_tableFold (P : DB → Prop) (f : DB → TblName → DB)
    (hstep : ∀ d t, P d → P (f d t)) :
    ∀ (ts : List TblName) (d : DB), P d → P (ts.foldl f d) := by
  intro ts
  induction ts with
  | nil => intro d h; exact h
  | cons t ts ih =>
      intro d h
      rw [List.foldl_cons]
      exact ih _ (hstep d t h)

theorem refInt_uniq_clean (v : Vocab) (db : DB)
    (h : RefIntegrity db ∧ UniqueIds db) :
    RefIntegrity (clean_database v db) ∧ UniqueIds (clean_database v db) := by
  simp only [clean_database]
  apply inv_tableFold (fun d => RefIntegrity d ∧ UniqueIds d) _
    (fun d t hd => refInt_uniq_step4 d t hd)
  apply inv_tableFold (fun d => RefIntegrity d ∧ UniqueIds d) _
    (fun d t hd => refInt_uniq_step3 v d t hd)
  apply inv_tableFold (fun d => RefIntegrity d ∧ UniqueIds d) _
    (fun d t hd => refInt_uniq_step2 v d t hd)
  exact h

end PokeClean

namespace PokeClean

/-- C1: cleaning preserves referential integrity — on a database with
unique primary keys and valid foreign keys, every surviving non-null FK
value after a run references an existing row of its target table; and
each deletion primitive of the run (junk/invalid delete, duplicate
delete) performs its FK nullification or remapping over the static edge
list before the row deletion, so the combined operation keeps the
integrity invariant. -/
theorem C1_referential_integrity :
    (∀ (v : Vocab) (db : DB), UniqueIds db → RefIntegrity db →
      RefIntegrity (clean_database v db)) ∧
    (∀ (db : DB) (i : Nat) (t : TblName), RefIntegrity db →
      RefIntegrity (deleteById (nullify_fks_referencing_id db i t) t i)) ∧
    (∀ (db : DB) (t : TblName) (c : Nat) (dups : List Nat), RefIntegrity db →
      c ∈ idsOf db t → c ∉ dups →
      RefIntegrity (removeIds (remap_fks_referencing db c dups t) t dups)) := by
  refine ⟨?_, ?_, ?_⟩
  · intro v db hu hr
    exact (refInt_uniq_clean v db ⟨hr, hu⟩).1
  · intro db i t h
    exact refInt_guardedDelete db i t h
  · intro db t c dups h hc hcd
    exact refInt_remapRemove db t c dups h hc hcd

theorem C1_referential_integrity_witness :
    UniqueIds DB0 ∧ RefIntegrity DB0 ∧ RefIntegrity (clean_database V0 DB0) :=
  ⟨by decide, by decide, C1_referential_integrity.1 V0 DB0 (by decide) (by decide)⟩

end PokeClean

namespace PokeClean

theorem mem_len_le_one {α : Type} {l : List α} (h : l.length ≤ 1) {a b : α}
    (ha : a ∈ l) (hb : b ∈ l) : a = b := by
  cases l with
  | nil => cases ha
  | cons x xs =>
      cases xs with
      | nil =>
          rw [List.mem_singleton] at ha hb
          rw [ha, hb]
      | cons y ys => simp at h

theorem dupGroups_complete (db : DB) (t : TblName) (k : Option Str)
    (hk : k ∈ (tableRows db t).map keyOfRow)
    (hlen : 2 ≤ (((tableRows db t).filter
      (fun r => decide (keyOfRow r = k))).map Prod.fst).length) :
    (minIdOf (((tableRows db t).filter (fun r => decide (keyOfRow r = k))).map Prod.fst),
      ((tableRows db t).filter (fun r => decide (keyOfRow r = k))).map Prod.fst) ∈
      dupGroups db t := by
  simp only [dupGroups]
  apply List.mem_filterMap.mpr
  refine ⟨k, (uniqFirst_mem _ k).mpr hk, ?_⟩
  rw [if_pos hlen]

theorem step4_table_nodup_keys (db : DB) (t : TblName)
    (hnd : ((tableRows db t).map Prod.fst).Nodup) :
    ((tableRows (step4_table db t) t).map keyOfRow).Nodup := by
  rw [step4_table_self]
  have hids' : (((tableRows db t).filter (fun r => decide (∀ g ∈ dupGroups db t,
      r.1 ∉ g.2.filter (fun x => decide (x ≠ g.1))))).map Prod.fst).Nodup :=
    ((List.filter_sublist (tableRows db t)).map Prod.fst).nodup hnd
  have hnodup' := List.Nodup.of_map Prod.fst hids'
  apply (List.nodup_map_iff_inj_on hnodup').mpr
  intro r hr r' hr' hkey
  obtain ⟨hrm, hrP⟩ := List.mem_filter.mp hr
  obtain ⟨hrm', hrP'⟩ := List.mem_filter.mp hr'
  have hP := of_decide_eq_true hrP
  have hP' := of_decide_eq_true hrP'
  have hrin : r ∈ (tableRows db t).filter (fun x => decide (keyOfRow x = keyOfRow r)) :=
    List.mem_filter.mpr ⟨hrm, by rw [decide_eq_true_eq]⟩
  have hr'in : r' ∈ (tableRows db t).filter (fun x => decide (keyOfRow x = keyOfRow r)) :=
    List.mem_filter.mpr ⟨hrm', by rw [decide_eq_true_eq]; exact hkey.symm⟩
  by_cases hlen : 2 ≤ (((tableRows db t).filter
      (fun x => decide (keyOfRow x = keyOfRow r))).map Prod.fst).length
  · have hg := dupGroups_complete db t (keyOfRow r)
      (List.mem_map.mpr ⟨r, hrm, rfl⟩) hlen
    have hr1 : r.1 ∈ ((tableRows db t).filter
        (fun x => decide (keyOfRow x = keyOfRow r))).map Prod.fst :=
      List.mem_map.mpr ⟨r, hrin, rfl⟩
    have hr1' : r'.1 ∈ ((tableRows db t).filter
        (fun x => decide (keyOfRow x = keyOfRow r))).map Prod.fst :=
      List.mem_map.mpr ⟨r', hr'in, rfl⟩
    have hmin : r.1 = minIdOf (((tableRows db t).filter
        (fun x => decide (keyOfRow x = keyOfRow r))).map Prod.fst) := by
      by_contra hne
      exact (hP _ hg) (List.mem_filter.mpr ⟨hr1, by rw [decide_eq_true_eq]; exact hne⟩)
    have hmin' : r'.1 = minIdOf (((tableRows db t).filter
        (fun x => decide (keyOfRow x = keyOfRow r))).map Prod.fst) := by
      by_contra hne
      exact (hP' _ hg) (List.mem_filter.mpr ⟨hr1', by rw [decide_eq_true_eq]; exact hne⟩)
    exact List.inj_on_of_nodup_map hnd hrm hrm' (by rw [hmin, hmin'])
  · push_neg at hlen
    have hlen2 : ((tableRows db t).filter
        (fun x => decide (keyOfRow x = keyOfRow r))).length ≤ 1 := by
      rw [← List.length_map ((tableRows db t).filter
        (fun x => decide (keyOfRow x = keyOfRow r))) Prod.fst]
      omega
    exact mem_len_le_one hlen2 hrin hr'in

theorem step4_min_survival (db : DB) (t : TblName)
    (hnd : ((tableRows db t).map Prod.fst).Nodup) :
    ∀ g ∈ dupGroups db t,
      (g.1 ∈ g.2 ∧ ∀ x ∈ g.2, g.1 ≤ x) ∧
      g.1 ∈ idsOf (step4_table db t) t ∧
      (∀ x ∈ g.2, x ≠ g.1 → x ∉ idsOf (step4_table db t) t) := by
  intro g hg
  obtain ⟨hmem, hself, hdisj⟩ := dupGroups_props db t hnd
  obtain ⟨k, hids, hlen, hmin⟩ := dupGroups_spec db t g hg
  have hsym : Symmetric (fun (g g' : Nat × List Nat) => ∀ x ∈ g.2, x ∉ g'.2) := by
    intro a b hab x hxb hxa
    exact (hab x hxa) hxb
  have hforall := hdisj.forall hsym
  have hnotdup : ∀ g' ∈ dupGroups db t, g.1 ∉ g'.2.filter (fun x => decide (x ≠ g'.1)) := by
    intro g' hg' hin
    obtain ⟨hin2, hne⟩ := List.mem_filter.mp hin
    by_cases heq : g' = g
    · subst heq
      rw [decide_eq_true_eq] at hne
      -- g.1 ∈ g.2 filtered by ≠ g.1 — need g.1 here; hin is about g.1 itself
      exact hne rfl
    · exact (hforall hg' hg (fun he => heq he) g.1 hin2) (hself g hg)
  constructor
  · exact ⟨hself g hg, by rw [hmin]; exact minIdOf_le g.2⟩
  constructor
  · have h1 := hmem g hg
    unfold idsOf at h1 ⊢
    rw [step4_table_self]
    obtain ⟨r, hr, hre⟩ := List.mem_map.mp h1
    refine List.mem_map.mpr ⟨r, List.mem_filter.mpr ⟨hr, ?_⟩, hre⟩
    rw [decide_eq_true_eq]
    intro g' hg'
    rw [hre]
    exact hnotdup g' hg'
  · intro x hx hne hxin
    unfold idsOf at hxin
    rw [step4_table_self] at hxin
    obtain ⟨r, hr, hre⟩ := List.mem_map.mp hxin
    obtain ⟨hrm, hrP⟩ := List.mem_filter.mp hr
    have hP := of_decide_eq_true hrP
    apply hP g hg
    rw [hre]
    exact List.mem_filter.mpr ⟨hx, by rw [decide_eq_true_eq]; exact hne⟩

theorem remap_colVals (db : DB) (t : TblName) (c : Nat) (dups : List Nat) :
    ∀ e ∈ fk_relationships, e.2.2 = t →
      colVals (remap_fks_referencing db c dups t) e.1 e.2.1 =
        (colVals db e.1 e.2.1).map (remapOne c dups) := by
  have hrem : ∀ (d : DB) (t0 : TblName),
      remap_fks_referencing d c dups t0 = fkFold d t0 (remapOne c dups) := fun _ _ => rfl
  intro e he het
  simp only [fk_relationships, List.mem_cons, List.not_mem_nil, or_false] at he
  rcases he with he | he | he | he | he <;> subst he <;> simp only at het <;> subst het
  · rw [hrem, fkFold_types_eq]
    simp [colVals, List.map_map]
  · rw [hrem, fkFold_types_eq]
    simp [colVals, List.map_map]
  · rw [hrem, fkFold_pokemon_eq]
    simp [colVals, List.map_map]
  · rw [hrem, fkFold_trainers_eq]
    simp [colVals, List.map_map]
  · rw [hrem, fkFold_abilities_eq]
    simp [colVals, List.map_map]

theorem uniqueIds_step2_table (v : Vocab) (db : DB) (t : TblName) (hu : UniqueIds db) :
    UniqueIds (step2_table v db t) := by
  simp only [step2_table]
  apply inv_updFold t UniqueIds
    (fun d i nm hd => uniqueIds_condUpdateName d t i nm hd)
  apply inv_delFold t UniqueIds
    (fun d i hd => uniqueIds_deleteById _ t i (uniqueIds_fkFold d t _ hd))
  exact hu

theorem uniqueIds_step3_table (v : Vocab) (db : DB) (t : TblName) (hu : UniqueIds db) :
    UniqueIds (step3_table v db t) := by
  simp only [step3_table]
  apply inv_delFold t UniqueIds
    (fun d i hd => uniqueIds_deleteById _ t i (uniqueIds_fkFold d t _ hd))
  exact hu

theorem uniqueIds_step4_table (db : DB) (t : TblName) (hu : UniqueIds db) :
    UniqueIds (step4_table db t) := by
  unfold step4_table
  generalize dupGroups db t = gs
  induction gs generalizing db with
  | nil => exact hu
  | cons g gs ih =>
      rw [List.foldl_cons]
      exact ih _ (uniqueIds_step4_group db t g.1 g.2 hu)

end PokeClean

namespace PokeClean

theorem uniqueIds_phases12 (v : Vocab) (db : DB) (hu : UniqueIds db) :
    UniqueIds (step3_table v (step3_table v (step3_table v (step3_table v
      (step2_table v (step2_table v (step2_table v (step2_table v db .pokemon)
        .types) .abilities) .trainers) .pokemon) .types) .abilities) .trainers) := by
  apply uniqueIds_step3_table
  apply uniqueIds_step3_table
  apply uniqueIds_step3_table
  apply uniqueIds_step3_table
  apply uniqueIds_step2_table
  apply uniqueIds_step2_table
  apply uniqueIds_step2_table
  apply uniqueIds_step2_table
  exact hu

theorem clean_nodup_keys (v : Vocab) (db : DB) (hu : UniqueIds db) (t : TblName) :
    ((tableRows (clean_database v db) t).map keyOfRow).Nodup := by
  have hu3 := uniqueIds_phases12 v db hu
  simp only [clean_database, entity_tables, List.foldl_cons, List.foldl_nil]
  cases t with
  | pokemon =>
      rw [step4_table_other _ .trainers .pokemon (by decide),
        step4_table_other _ .abilities .pokemon (by decide),
        step4_table_other _ .types .pokemon (by decide)]
      exact step4_table_nodup_keys _ _ (uniqueIds_tableRows _ hu3 _)
  | types =>
      rw [step4_table_other _ .trainers .types (by decide),
        step4_table_other _ .abilities .types (by decide)]
      exact step4_table_nodup_keys _ _
        (uniqueIds_tableRows _ (uniqueIds_step4_table _ _ hu3) _)
  | abilities =>
      rw [step4_table_other _ .trainers .abilities (by decide)]
      exact step4_table_nodup_keys _ _
        (uniqueIds_tableRows _
          (uniqueIds_step4_table _ _ (uniqueIds_step4_table _ _ hu3)) _)
  | trainers =>
      exact step4_table_nodup_keys _ _
        (uniqueIds_tableRows _
          (uniqueIds_step4_table _ _
            (uniqueIds_step4_table _ _ (uniqueIds_step4_table _ _ hu3))) _)
  | trainer_pokemon_abilities => simp [tableRows]

/-- C2: after a successful run no two surviving rows of an entity table
have case-insensitively equal names (the `LOWER(name)` keys are nodup);
for every duplicate group found by the dedup query the minimum id is in
the group, survives phase 3, and every non-minimum id of the group is
deleted; every dependent FK column is rewritten pointwise by the
canonical remap; and group processing is remap-then-delete. -/
theorem C2_deduplication :
    (∀ (v : Vocab) (db : DB), UniqueIds db → ∀ t,
      ((tableRows (clean_database v db) t).map keyOfRow).Nodup) ∧
    (∀ (db : DB) (t : TblName), ((tableRows db t).map Prod.fst).Nodup →
      ∀ g ∈ dupGroups db t,
        (g.1 ∈ g.2 ∧ ∀ x ∈ g.2, g.1 ≤ x) ∧
        g.1 ∈ idsOf (step4_table db t) t ∧
        (∀ x ∈ g.2, x ≠ g.1 → x ∉ idsOf (step4_table db t) t)) ∧
    (∀ (db : DB) (t : TblName) (c : Nat) (dups : List Nat)
      (e : TblName × ColName × TblName),
      e ∈ fk_relationships → e.2.2 = t →
        colVals (remap_fks_referencing db c dups t) e.1 e.2.1 =
          (colVals db e.1 e.2.1).map (remapOne c dups)) ∧
    (∀ (db : DB) (t : TblName) (c : Nat) (ids : List Nat),
      ids.filter (fun x => decide (x ≠ c)) ≠ [] →
      step4_group db t c ids =
        removeIds (remap_fks_referencing db c
          (ids.filter (fun x => decide (x ≠ c))) t) t
          (ids.filter (fun x => decide (x ≠ c)))) := by
  refine ⟨?_, ?_, ?_, ?_⟩
  · intro v db hu t
    exact clean_nodup_keys v db hu t
  · intro db t hnd g hg
    exact step4_min_survival db t hnd g hg
  · intro db t c dups e he het
    exact remap_colVals db t c dups e he het
  · intro db t c ids h
    simp only [step4_group]
    rw [if_neg h]

theorem C2_deduplication_witness :
    UniqueIds DB0 ∧
    ((tableRows (clean_database V0 DB0) TblName.pokemon).map keyOfRow).Nodup ∧
    (1 ∈ idsOf (step4_table DB0 TblName.pokemon) TblName.pokemon ∧
      2 ∉ idsOf (step4_table DB0 TblName.pokemon) TblName.pokemon) ∧
    colVals (remap_fks_referencing DB0 1 [2] TblName.pokemon)
        TblName.trainer_pokemon_abilities ColName.pokemon_id =
      (colVals DB0 TblName.trainer_pokemon_abilities ColName.pokemon_id).map
        (remapOne 1 [2]) := by
  refine ⟨by decide, C2_deduplication.1 V0 DB0 (by decide) TblName.pokemon, ?_, ?_⟩
  · have h := C2_deduplication.2.1 DB0 TblName.pokemon (by decide)
      (1, [1, 2]) (by decide)
    exact ⟨h.2.1, h.2.2 2 (by decide) (by decide)⟩
  · exact C2_deduplication.2.2.1 DB0 TblName.pokemon 1 [2]
      (TblName.trainer_pokemon_abilities, ColName.pokemon_id, TblName.pokemon)
      (by decide) rfl

end PokeClean

namespace PokeClean

theorem step2_id_of_fixed (v : Vocab) (db : DB) (t : TblName)
    (h : ∀ r ∈ tableRows db t, ∃ s, r.2 = some s ∧ isJunkStr s = false ∧
      proposeName (validMapFor v t) (thresholdFor t) s = s) :
    step2_table v db t = db := by
  simp only [step2_table]
  have hdels : (tableRows db t).filter (fun r => isJunkName r.2) = [] := by
    rw [List.filter_eq_nil_iff]
    intro r hr
    obtain ⟨s, hs, hj, _⟩ := h r hr
    simp [isJunkName, hs, hj]
  have hupds : (tableRows db t).filterMap (fun r =>
      match r.2 with
      | none => none
      | some nm =>
          if isJunkStr nm then none
          else
            let p := proposeName (validMapFor v t) (thresholdFor t) nm
            if p ≠ nm then some (r.1, p) else none) = [] := by
    rw [List.filterMap_eq_nil_iff]
    intro r hr
    obtain ⟨s, hs, hj, hp⟩ := h r hr
    simp only [hs, hj, hp]
    simp
  rw [hdels, hupds]
  rfl

theorem filter_key_len_le_one (rows : List (Nat × Option Str))
    (h : (rows.map keyOfRow).Nodup) (k : Option Str) :
    (rows.filter (fun r => decide (keyOfRow r = k))).length ≤ 1 := by
  induction rows with
  | nil => simp
  | cons r rows ih =>
      rw [List.map_cons, List.nodup_cons] at h
      by_cases hk : keyOfRow r = k
      · rw [List.filter_cons_of_pos (by rw [decide_eq_true_eq]; exact hk)]
        have hnil : rows.filter (fun r => decide (keyOfRow r = k)) = [] := by
          rw [List.filter_eq_nil_iff]
          intro r' hr' hd
          rw [decide_eq_true_eq] at hd
          exact h.1 (List.mem_map.mpr ⟨r', hr', hd.trans hk.symm⟩)
        rw [hnil]
        simp
      · rw [List.filter_cons_of_neg (by simp [hk])]
        exact ih h.2

theorem dupGroups_nil_of_nodup_keys (db : DB) (t : TblName)
    (h : ((tableRows db t).map keyOfRow).Nodup) : dupGroups db t = [] := by
  simp only [dupGroups]
  rw [List.filterMap_eq_nil_iff]
  intro k hk
  rw [if_neg]
  rw [List.length_map]
  have := filter_key_len_le_one (tableRows db t) h k
  omega

theorem step4_id_of_nodup_keys (db : DB) (t : TblName)
    (h : ((tableRows db t).map keyOfRow).Nodup) : step4_table db t = db := by
  unfold step4_table
  rw [dupGroups_nil_of_nodup_keys db t h]
  rfl

theorem clean_row_names_core (v : Vocab) (db0 : DB) (t : TblName)
    (hnd : ((tableRows db0 t).map Prod.fst).Nodup)
    (r : Nat × Option Str) (hr2 : r ∈ tableRows (step2_table v db0 t) t)
    (s : Str) (hs : r.2 = some s) (hin : s ∈ validSetFor v t) :
    ∃ s' n, r.2 = some s' ∧ n ∈ rawNamesFor v t ∧
      normalize_string s' = normalize_string n ∧
      (normalize_string s', s') ∈ validMapFor v t := by
  obtain ⟨x, hxj, hxp⟩ := step2_names v db0 t hnd r hr2
  rw [hs] at hxp
  have hsx : s = proposeName (validMapFor v t) (thresholdFor t) x := Option.some.inj hxp
  rcases proposeName_inv v t x with ⟨e, he, hpe⟩ | hnot
  · obtain ⟨n, hn, h1, h2⟩ := buildValidMap_mem (rawNamesFor v t) e he
    refine ⟨s, n, hs, hn, ?_, ?_⟩
    · rw [hsx, hpe, h2, normalize_title]
    · have hkey : normalize_string s = e.1 := by
        rw [hsx, hpe, h2, normalize_title, h1]
      rw [hkey, hsx, hpe]
      exact he
  · rw [hsx] at hin
    exact absurd hin hnot

theorem clean_row_names (v : Vocab) (db : DB) (hu : UniqueIds db) (t : TblName) :
    ∀ r ∈ tableRows (clean_database v db) t,
      t ≠ TblName.trainer_pokemon_abilities →
      ∃ s n, r.2 = some s ∧ n ∈ rawNamesFor v t ∧
        normalize_string s = normalize_string n ∧
        (normalize_string s, s) ∈ validMapFor v t := by
  intro r hr ht
  simp only [clean_database, entity_tables, List.foldl_cons, List.foldl_nil] at hr
  have hr3 := step4_table_mem _ _ _ r (step4_table_mem _ _ _ r
    (step4_table_mem _ _ _ r (step4_table_mem _ _ _ r hr)))
  cases t with
  | pokemon =>
      rw [step3_tableRows_other v _ .trainers .pokemon (by decide),
        step3_tableRows_other v _ .abilities .pokemon (by decide),
        step3_tableRows_other v _ .types .pokemon (by decide)] at hr3
      obtain ⟨hr2, s, hs, hin⟩ := step3_mem v _ .pokemon r hr3
      rw [step2_tableRows_other v _ .trainers .pokemon (by decide),
        step2_tableRows_other v _ .abilities .pokemon (by decide),
        step2_tableRows_other v _ .types .pokemon (by decide)] at hr2
      exact clean_row_names_core v db .pokemon
        (uniqueIds_tableRows db hu .pokemon) r hr2 s hs hin
  | types =>
      rw [step3_tableRows_other v _ .trainers .types (by decide),
        step3_tableRows_other v _ .abilities .types (by decide)] at hr3
      obtain ⟨hr2, s, hs, hin⟩ := step3_mem v _ .types r hr3
      rw [step3_tableRows_other v _ .pokemon .types (by decide)] at hr2
      rw [step2_tableRows_other v _ .trainers .types (by decide),
        step2_tableRows_other v _ .abilities .types (by decide)] at hr2
      exact clean_row_names_core v _ .types
        (uniqueIds_tableRows _ (uniqueIds_step2_table v db .pokemon hu) .types)
        r hr2 s hs hin
  | abilities =>
      rw [step3_tableRows_other v _ .trainers .abilities (by decide)] at hr3
      obtain ⟨hr2, s, hs, hin⟩ := step3_mem v _ .abilities r hr3
      rw [step3_tableRows_other v _ .types .abilities (by decide),
        step3_tableRows_other v _ .pokemon .abilities (by decide)] at hr2
      rw [step2_tableRows_other v _ .trainers .abilities (by decide)] at hr2
      exact clean_row_names_core v _ .abilities
        (uniqueIds_tableRows _ (uniqueIds_step2_table v _ .types
          (uniqueIds_step2_table v db .pokemon hu)) .abilities)
        r hr2 s hs hin
  | trainers =>
      obtain ⟨hr2, s, hs, hin⟩ := step3_mem v _ .trainers r hr3
      rw [step3_tableRows_other v _ .abilities .trainers (by decide),
        step3_tableRows_other v _ .types .trainers (by decide),
        step3_tableRows_other v _ .pokemon .trainers (by decide)] at hr2
      exact clean_row_names_core v _ .trainers
        (uniqueIds_tableRows _ (uniqueIds_step2_table v _ .abilities
          (uniqueIds_step2_table v _ .types
            (uniqueIds_step2_table v db .pokemon hu))) .trainers)
        r hr2 s hs hin
  | trainer_pokemon_abilities => exact absurd rfl ht

theorem clean_row_fixed (v : Vocab) (db : DB) (hu : UniqueIds db)
    (hv : ∀ t, ∀ n ∈ rawNamesFor v t, normalize_string n ≠ [])
    (t : TblName) (ht : t ≠ TblName.trainer_pokemon_abilities) :
    ∀ r ∈ tableRows (clean_database v db) t,
      ∃ s, r.2 = some s ∧ isJunkStr s = false ∧
        proposeName (validMapFor v t) (thresholdFor t) s = s ∧
        s ∈ validSetFor v t := by
  intro r hr
  obtain ⟨s, n, hs, hn, hnorm, hmem⟩ := clean_row_names v db hu t r hr ht
  have hne : normalize_string s ≠ [] := by rw [hnorm]; exact hv t n hn
  refine ⟨s, hs, not_junk_of_normalize_ne_nil s hne, ?_, ?_⟩
  · exact proposeName_exact _ _ s s
      (lookupKey_of_mem _ (buildValidMap_nodup _) _ _ hmem)
  · exact validMap_value_in_set v t (normalize_string s, s) hmem

end PokeClean

namespace PokeClean

/-- C7: the cleaning engine is idempotent. On the result of a successful
first run (same vocabularies, with the spec's unique-id data-model
assumption and vocabulary names that do not normalize to the empty key),
every phase-1, phase-2 and phase-3 pass is the identity — no updates,
deletions or FK rewrites occur — and the second full run returns the
first run's output unchanged. -/
theorem C7_idempotence (v : Vocab) (db : DB) (hu : UniqueIds db)
    (hv : ∀ t, ∀ n ∈ rawNamesFor v t, normalize_string n ≠ []) :
    (∀ t, t ≠ TblName.trainer_pokemon_abilities →
      step2_table v (clean_database v db) t = clean_database v db) ∧
    (∀ t, t ≠ TblName.trainer_pokemon_abilities →
      step3_table v (clean_database v db) t = clean_database v db) ∧
    (∀ t, step4_table (clean_database v db) t = clean_database v db) ∧
    clean_database v (clean_database v db) = clean_database v db := by
  have h2 : ∀ t, t ≠ TblName.trainer_pokemon_abilities →
      step2_table v (clean_database v db) t = clean_database v db := by
    intro t ht
    apply step2_id_of_fixed
    intro r hr
    obtain ⟨s, hs, hj, hp, _⟩ := clean_row_fixed v db hu hv t ht r hr
    exact ⟨s, hs, hj, hp⟩
  have h3 : ∀ t, t ≠ TblName.trainer_pokemon_abilities →
      step3_table v (clean_database v db) t = clean_database v db := by
    intro t ht
    apply step3_id_of_good
    intro r hr
    obtain ⟨s, hs, _, _, hset⟩ := clean_row_fixed v db hu hv t ht r hr
    exact ⟨s, hs, hset⟩
  have h4 : ∀ t, step4_table (clean_database v db) t = clean_database v db := by
    intro t
    exact step4_id_of_nodup_keys _ _ (clean_nodup_keys v db hu t)
  refine ⟨h2, h3, h4, ?_⟩
  generalize hgen : clean_database v db = D at h2 h3 h4
  show clean_database v D = D
  simp only [clean_database, entity_tables, List.foldl_cons, List.foldl_nil]
  rw [h2 .pokemon (by decide), h2 .types (by decide), h2 .abilities (by decide),
    h2 .trainers (by decide), h3 .pokemon (by decide), h3 .types (by decide),
    h3 .abilities (by decide), h3 .trainers (by decide),
    h4 .pokemon, h4 .types, h4 .abilities, h4 .trainers]

theorem C7_idempotence_witness :
    UniqueIds DB0 ∧
    clean_database V0 (clean_database V0 DB0) = clean_database V0 DB0 :=
  ⟨by decide,
    (C7_idempotence V0 DB0 (by decide) (by intro t; cases t <;> decide)).2.2.2⟩

end PokeClean
